import Mathlib

set_option linter.unusedSectionVars false
set_option linter.unusedVariables false

/-!
Verification of the brute-force dense vector search core
(`faiss/utils/distances.cpp`).

The C++ code is embedded shallowly over exact rationals:

* a row-major matrix (`float *x` with stride `d`) becomes `List (List ℚ)`,
  one inner list per row;
* the scalar kernels `fvec_inner_product`, `fvec_L2sqr`,
  `fvec_norm_L2sqr` (declared in `distances.h`, external to this file)
  become the exact dot product / squared distance / squared norm;
* the per-query top-k buffer (`heap_dis_tab + i*k`, `heap_ids_tab + i*k`)
  becomes a `k`-node binary tree of `(value, id)` pairs, a max-heap with
  respect to the polarity order.  `CMax<float,int64_t>` (used for L2²)
  is instantiated at `WithTop ℚ` (sentinel `C::neutral() = +inf` is `⊤`,
  id sentinel `-1`); `CMin<float,int64_t>` (used for inner product) is
  instantiated at `(WithBot ℚ)ᵒᵈ` (sentinel `-inf` is `⊥`, which is the
  top of the dual order), so one generic max-heap development covers
  both polarities, exactly as the single template parameter `C` does;
* `C::cmp(a, b)` is `a > b` for `CMax` and `a < b` for `CMin`; in both
  instantiations this is `b < a` in the polarity order, which is how the
  admission tests below are written.

`fvec_renorm_L2` uses `sqrtf`, so its exact-arithmetic model lives over
`ℝ` in a separate section.
-/

namespace Faiss

/-! ## Scalar kernels (external collaborators, §4.1 of the spec)

Modelled from the spec: `fvec_inner_product`, `fvec_L2sqr` and
`fvec_norm_L2sqr` are declared in `faiss/utils/distances.h` and defined
elsewhere; the spec gives their contracts: dot product, Σ(aᵢ−bᵢ)², Σaᵢ².
-/

/-- Modelled from the spec: `ip(a, b, d)`, the dot product of two rows. -/
def fvec_inner_product (x y : List ℚ) : ℚ :=
  (List.zipWith (fun a b => a * b) x y).sum

/-- Modelled from the spec: `l2sqr(a, b, d) = Σ (aᵢ − bᵢ)²`. -/
def fvec_L2sqr (x y : List ℚ) : ℚ :=
  (List.zipWith (fun a b => (a - b) * (a - b)) x y).sum

/-- Modelled from the spec: `norm_l2sqr(a, d) = Σ aᵢ²`. -/
def fvec_norm_L2sqr (x : List ℚ) : ℚ :=
  (x.map (fun a => a * a)).sum

/-- `fvec_norms_L2sqr` (distances.cpp:94): squared norms of all rows. -/
def fvec_norms_L2sqr (X : List (List ℚ)) : List ℚ :=
  X.map fvec_norm_L2sqr

theorem fvec_norm_L2sqr_nonneg (x : List ℚ) : 0 ≤ fvec_norm_L2sqr x := by
  unfold fvec_norm_L2sqr
  induction x with
  | nil => simp
  | cons a t ih =>
      simp only [List.map_cons, List.sum_cons]
      have : 0 ≤ a * a := mul_self_nonneg a
      linarith

/-- The L2² norm identity `‖x−y‖² = ‖x‖² + ‖y‖² − 2⟨x,y⟩` for rows of
equal length (exact arithmetic). -/
theorem l2sqr_norm_identity (x y : List ℚ) (h : x.length = y.length) :
    fvec_L2sqr x y =
      fvec_norm_L2sqr x + fvec_norm_L2sqr y - 2 * fvec_inner_product x y := by
  induction x generalizing y with
  | nil =>
      cases y with
      | nil => simp [fvec_L2sqr, fvec_norm_L2sqr, fvec_inner_product]
      | cons b t => simp at h
  | cons a t ih =>
      cases y with
      | nil => simp at h
      | cons b u =>
          have h' : t.length = u.length := by simpa using h
          have := ih u h'
          simp only [fvec_L2sqr, fvec_norm_L2sqr, fvec_inner_product,
            List.zipWith_cons_cons, List.map_cons, List.sum_cons] at *
          rw [this]
          ring

theorem fvec_L2sqr_nonneg (x y : List ℚ) : 0 ≤ fvec_L2sqr x y := by
  unfold fvec_L2sqr
  induction x generalizing y with
  | nil => simp
  | cons a t ih =>
      cases y with
      | nil => simp
      | cons b u =>
          simp only [List.zipWith_cons_cons, List.sum_cons]
          have h1 : 0 ≤ (a - b) * (a - b) := mul_self_nonneg _
          have h2 := ih u
          linarith

/-! ## The top-k heap (`HeapResultHandler`, distances.cpp:141)

Modelled from the spec: the heap primitives `heap_heapify`, `heap_pop`,
`heap_push`, `heap_reorder` and the comparators `CMin`/`CMax` live in
`faiss/utils/Heap.h`, which is not part of this repository slice.  The
spec (§3, §4.3.1) describes them as: a `k`-slot binary heap of
`(value, id)` pairs whose root is the worst kept element, initialized by
`heap_heapify` to the sentinel `(C::neutral(), -1)`; `heap_pop` followed
by `heap_push` replaces the root and restores the heap property;
`heap_reorder` sorts the slots (ascending for the `CMax` polarity,
descending for `CMin`).  We model the buffer as a binary tree and the
pop/push pair as replace-root-and-sift-down; the polarity is a
`LinearOrder` on the value type, with the heap a max-heap for it, so
`CMax` is `WithTop ℚ` and `CMin` is `(WithBot ℚ)ᵒᵈ`. -/

/-- A binary tree of `(value, id)` pairs: the model of one query's
`k`-slot heap buffer `(heap_dis_tab + i*k, heap_ids_tab + i*k)`. -/
inductive HTree (α : Type) where
  | leaf : HTree α
  | node (val : α) (id : Int) (l r : HTree α) : HTree α
deriving DecidableEq

namespace HTree

variable {α : Type} [LinearOrder α]

/-- Number of occupied slots. -/
def size : HTree α → Nat
  | leaf => 0
  | node _ _ l r => l.size + r.size + 1

/-- The `(value, id)` pairs stored in the buffer, as a multiset. -/
def entries : HTree α → Multiset (α × Int)
  | leaf => 0
  | node v i l r => (v, i) ::ₘ (l.entries + r.entries)

/-- The pairs in preorder, as a list (used by `heap_reorder`). -/
def entriesL : HTree α → List (α × Int)
  | leaf => []
  | node v i l r => (v, i) :: (l.entriesL ++ r.entriesL)

/-- The stored values. -/
def vals (t : HTree α) : Multiset α := t.entries.map Prod.fst

/-- The root slot `heap_dis[0]`, with a default for the empty buffer. -/
def rootD : HTree α → α → α
  | leaf, d => d
  | node v _ _ _, _ => v

/-- The binary heap property: every node dominates its subtrees
(max-heap for the polarity order). -/
def heapOrdered : HTree α → Prop
  | leaf => True
  | node v _ l r =>
      (∀ x ∈ l.vals, x ≤ v) ∧ (∀ x ∈ r.vals, x ≤ v) ∧
        l.heapOrdered ∧ r.heapOrdered

instance heapOrderedDec : (t : HTree α) → Decidable (heapOrdered t)
  | leaf => .isTrue trivial
  | node v i l r =>
      haveI := heapOrderedDec l
      haveI := heapOrderedDec r
      decidable_of_iff
        ((∀ x ∈ l.vals, x ≤ v) ∧ (∀ x ∈ r.vals, x ≤ v) ∧
          l.heapOrdered ∧ r.heapOrdered) Iff.rfl

/-- Modelled from the spec: sift a replacement pair down from the root
position, restoring the heap property (the `heap_pop`/`heap_push` pair
of §4.3.1: on admit, pop root, push `(d, id)`).  The `fuel` argument
makes the recursion structural; with `fuel ≥ l.size + r.size` (as the
wrapper `siftTop` supplies) the fuel never runs out. -/
def siftTopF (v : α) (i : Int) : Nat → HTree α → HTree α → HTree α
  | 0, l, r => node v i l r
  | _ + 1, leaf, leaf => node v i leaf leaf
  | fuel + 1, node lv li ll lr, leaf =>
      if v < lv then node lv li (siftTopF v i fuel ll lr) leaf
      else node v i (node lv li ll lr) leaf
  | fuel + 1, leaf, node rv ri rl rr =>
      if v < rv then node rv ri leaf (siftTopF v i fuel rl rr)
      else node v i leaf (node rv ri rl rr)
  | fuel + 1, node lv li ll lr, node rv ri rl rr =>
      if lv < rv then
        if v < rv then node rv ri (node lv li ll lr) (siftTopF v i fuel rl rr)
        else node v i (node lv li ll lr) (node rv ri rl rr)
      else
        if v < lv then node lv li (siftTopF v i fuel ll lr) (node rv ri rl rr)
        else node v i (node lv li ll lr) (node rv ri rl rr)

/-- Sift from the root with adequate fuel. -/
def siftTop (v : α) (i : Int) (l r : HTree α) : HTree α :=
  siftTopF v i (l.size + r.size) l r

/-- Replace the root pair and restore the heap property. -/
def replaceRootDown : HTree α → α → Int → HTree α
  | leaf, _, _ => leaf
  | node _ _ l r, v, i => siftTop v i l r

/-- `HeapResultHandler::SingleResultHandler::add_result`
(distances.cpp:186): admit `(dis, idx)` iff `C::cmp(heap_dis[0], dis)`,
i.e. iff `dis` is strictly better than the root; on admit, pop the root
and push the candidate. -/
def addResult (t : HTree α) (d : α) (i : Int) : HTree α :=
  match t with
  | leaf => leaf
  | node rv _ _ _ => if d < rv then t.replaceRootDown d i else t

/-- The inner loop of `HeapResultHandler::add_results`
(distances.cpp:222-230): the threshold is read from `heap_dis[0]` before
the loop and re-read only after a push. -/
def addResultsLoop : HTree α → α → List (α × Int) → HTree α
  | t, _, [] => t
  | t, thresh, c :: rest =>
      if c.1 < thresh then
        let t' := t.replaceRootDown c.1 c.2
        addResultsLoop t' (t'.rootD thresh) rest
      else addResultsLoop t thresh rest

/-- Modelled from the spec: `heap_heapify` fills the `k` slots with the
sentinel pair `(C::neutral(), -1)` (worst value first).  The tree shape
is a modelling artifact: every spec-visible aspect (stored multiset,
root, heap property, reorder output) is shape-independent. -/
def heapifyTree (sent : α) : Nat → HTree α
  | 0 => leaf
  | k + 1 => node sent (-1) (heapifyTree sent k) leaf

/-- Modelled from the spec: `heap_reorder` sorts the `k` slots by value,
ascending in the polarity order (§4.3.1: ascending for `CMax`,
descending for `CMin`). -/
def reorder (t : HTree α) : List (α × Int) :=
  List.insertionSort (fun a b => a.1 ≤ b.1) t.entriesL

/-- Per-query direct-path accumulation: fold `add_result` over the
candidate stream (the `j`-loop of `exhaustive_*_seq`). -/
def topkFold (t : HTree α) (cs : List (α × Int)) : HTree α :=
  cs.foldl (fun t c => t.addResult c.1 c.2) t

/-! ### Basic heap lemmas -/

@[simp] theorem entries_leaf : (leaf : HTree α).entries = 0 := rfl

@[simp] theorem entries_node (v : α) (i : Int) (l r : HTree α) :
    (node v i l r).entries = (v, i) ::ₘ (l.entries + r.entries) := rfl

@[simp] theorem vals_leaf : (leaf : HTree α).vals = 0 := rfl

@[simp] theorem vals_node (v : α) (i : Int) (l r : HTree α) :
    (node v i l r).vals = v ::ₘ (l.vals + r.vals) := by
  simp [vals]

@[simp] theorem rootD_leaf (d : α) : (leaf : HTree α).rootD d = d := rfl

@[simp] theorem rootD_node (v : α) (i : Int) (l r : HTree α) (d : α) :
    (node v i l r).rootD d = v := rfl

theorem heapOrdered_node {v : α} {i : Int} {l r : HTree α} :
    (node v i l r).heapOrdered ↔
      (∀ x ∈ l.vals, x ≤ v) ∧ (∀ x ∈ r.vals, x ≤ v) ∧
        l.heapOrdered ∧ r.heapOrdered := Iff.rfl

@[simp] theorem heapOrdered_leaf : (leaf : HTree α).heapOrdered := trivial

theorem card_entries (t : HTree α) : t.entries.card = t.size := by
  induction t with
  | leaf => rfl
  | node v i l r ihl ihr => simp [size, ihl, ihr]

theorem entriesL_coe (t : HTree α) : (t.entriesL : Multiset (α × Int)) = t.entries := by
  induction t with
  | leaf => rfl
  | node v i l r ihl ihr => simp [entriesL, ← ihl, ← ihr]

/-- Every stored value is bounded by the root (`heap_dis[0]` is the
admission threshold: the worst kept element). -/
theorem val_le_rootD {t : HTree α} (h : t.heapOrdered) (d : α) :
    ∀ x ∈ t.vals, x ≤ t.rootD d := by
  cases t with
  | leaf => simp
  | node v i l r =>
      intro x hx
      rw [vals_node, Multiset.mem_cons, Multiset.mem_add] at hx
      rcases hx with rfl | hx | hx
      · simp
      · exact le_trans ((heapOrdered_node.mp h).1 x hx) (by simp)
      · exact le_trans ((heapOrdered_node.mp h).2.1 x hx) (by simp)

theorem vals_le_of_rootD_le {t : HTree α} (h : t.heapOrdered) {b : α}
    (hb : t.rootD b ≤ b) : ∀ x ∈ t.vals, x ≤ b :=
  fun x hx => le_trans (val_le_rootD h b x hx) hb

theorem rootD_mem {t : HTree α} (ht : t ≠ leaf) (d : α) : t.rootD d ∈ t.vals := by
  cases t with
  | leaf => exact absurd rfl ht
  | node v i l r => simp

theorem size_eq_zero {t : HTree α} (h : t.size = 0) : t = leaf := by
  cases t with
  | leaf => rfl
  | node v i l r => simp [size] at h

theorem entries_siftTopF (v : α) (i : Int) :
    ∀ (fuel : Nat) (l r : HTree α),
      (siftTopF v i fuel l r).entries = (v, i) ::ₘ (l.entries + r.entries) := by
  intro fuel l r
  induction fuel, l, r using siftTopF.induct v i with
  | case1 l r => rw [siftTopF]; rfl
  | case2 fuel => rw [siftTopF]; simp
  | case3 fuel lv li ll lr hlt ih =>
      rw [siftTopF]
      simp only [if_pos hlt, entries_node, entries_leaf, add_zero, ih]
      exact Multiset.cons_swap _ _ _
  | case4 fuel lv li ll lr hlt =>
      rw [siftTopF]; simp [if_neg hlt]
  | case5 fuel rv ri rl rr hlt ih =>
      rw [siftTopF]
      simp only [if_pos hlt, entries_node, entries_leaf, zero_add, ih]
      exact Multiset.cons_swap _ _ _
  | case6 fuel rv ri rl rr hlt =>
      rw [siftTopF]; simp [if_neg hlt]
  | case7 fuel lv li ll lr rv ri rl rr hc hlt ih =>
      rw [siftTopF]
      simp only [if_pos hc, if_pos hlt, entries_node, ih,
        ← Multiset.singleton_add]
      abel
  | case8 fuel lv li ll lr rv ri rl rr hc hlt =>
      rw [siftTopF]; simp [if_pos hc, if_neg hlt]
  | case9 fuel lv li ll lr rv ri rl rr hc hlt ih =>
      rw [siftTopF]
      simp only [if_neg hc, if_pos hlt, entries_node, ih,
        ← Multiset.singleton_add]
      abel
  | case10 fuel lv li ll lr rv ri rl rr hc hlt =>
      rw [siftTopF]; simp [if_neg hc, if_neg hlt]

theorem entries_siftTop (v : α) (i : Int) (l r : HTree α) :
    (siftTop v i l r).entries = (v, i) ::ₘ (l.entries + r.entries) :=
  entries_siftTopF v i (l.size + r.size) l r

theorem vals_siftTop (v : α) (i : Int) (l r : HTree α) :
    (siftTop v i l r).vals = v ::ₘ (l.vals + r.vals) := by
  simp [vals, entries_siftTop]

theorem siftTop_ne_leaf (v : α) (i : Int) (l r : HTree α) :
    siftTop v i l r ≠ leaf := by
  intro h
  have := congrArg (Multiset.card ∘ entries) h
  simp [entries_siftTop] at this

theorem vals_siftTopF (v : α) (i : Int) (fuel : Nat) (l r : HTree α) :
    (siftTopF v i fuel l r).vals = v ::ₘ (l.vals + r.vals) := by
  simp [vals, entries_siftTopF]

theorem heapOrdered_siftTopF (v : α) (i : Int) :
    ∀ (fuel : Nat) (l r : HTree α), l.size + r.size ≤ fuel →
      l.heapOrdered → r.heapOrdered → (siftTopF v i fuel l r).heapOrdered := by
  intro fuel l r
  induction fuel, l, r using siftTopF.induct v i with
  | case1 l r =>
      intro hsz hl hr
      have hl0 : l = leaf := size_eq_zero (by omega)
      have hr0 : r = leaf := size_eq_zero (by omega)
      subst hl0; subst hr0
      rw [siftTopF]
      exact heapOrdered_node.mpr (by simp)
  | case2 fuel =>
      intro _ _ _
      rw [siftTopF]
      exact heapOrdered_node.mpr (by simp)
  | case3 fuel lv li ll lr hlt ih =>
      intro hsz hl _
      rw [siftTopF, if_pos hlt]
      rcases heapOrdered_node.mp hl with ⟨h1, h2, h3, h4⟩
      have hsz' : ll.size + lr.size ≤ fuel := by
        simp only [size] at hsz; omega
      refine heapOrdered_node.mpr ⟨?_, by simp, ih hsz' h3 h4, trivial⟩
      intro x hx
      rw [vals_siftTopF, Multiset.mem_cons, Multiset.mem_add] at hx
      rcases hx with rfl | hx | hx
      · exact le_of_lt hlt
      · exact h1 x hx
      · exact h2 x hx
  | case4 fuel lv li ll lr hlt =>
      intro hsz hl _
      rw [siftTopF, if_neg hlt]
      refine heapOrdered_node.mpr ⟨?_, by simp, hl, trivial⟩
      exact vals_le_of_rootD_le hl (le_of_not_lt hlt)
  | case5 fuel rv ri rl rr hlt ih =>
      intro hsz _ hr
      rw [siftTopF, if_pos hlt]
      rcases heapOrdered_node.mp hr with ⟨h1, h2, h3, h4⟩
      have hsz' : rl.size + rr.size ≤ fuel := by
        simp only [size] at hsz; omega
      refine heapOrdered_node.mpr ⟨by simp, ?_, trivial, ih hsz' h3 h4⟩
      intro x hx
      rw [vals_siftTopF, Multiset.mem_cons, Multiset.mem_add] at hx
      rcases hx with rfl | hx | hx
      · exact le_of_lt hlt
      · exact h1 x hx
      · exact h2 x hx
  | case6 fuel rv ri rl rr hlt =>
      intro hsz _ hr
      rw [siftTopF, if_neg hlt]
      refine heapOrdered_node.mpr ⟨by simp, ?_, trivial, hr⟩
      exact vals_le_of_rootD_le hr (le_of_not_lt hlt)
  | case7 fuel lv li ll lr rv ri rl rr hc hlt ih =>
      intro hsz hl hr
      rw [siftTopF, if_pos hc, if_pos hlt]
      rcases heapOrdered_node.mp hr with ⟨h1, h2, h3, h4⟩
      have hsz' : rl.size + rr.size ≤ fuel := by
        simp only [size] at hsz; omega
      refine heapOrdered_node.mpr ⟨?_, ?_, hl, ih hsz' h3 h4⟩
      · exact vals_le_of_rootD_le hl (le_of_lt hc)
      · intro x hx
        rw [vals_siftTopF, Multiset.mem_cons, Multiset.mem_add] at hx
        rcases hx with rfl | hx | hx
        · exact le_of_lt hlt
        · exact h1 x hx
        · exact h2 x hx
  | case8 fuel lv li ll lr rv ri rl rr hc hlt =>
      intro hsz hl hr
      rw [siftTopF, if_pos hc, if_neg hlt]
      refine heapOrdered_node.mpr ⟨?_, ?_, hl, hr⟩
      · exact vals_le_of_rootD_le hl (le_of_lt (lt_of_lt_of_le hc (le_of_not_lt hlt)))
      · exact vals_le_of_rootD_le hr (le_of_not_lt hlt)
  | case9 fuel lv li ll lr rv ri rl rr hc hlt ih =>
      intro hsz hl hr
      rw [siftTopF, if_neg hc, if_pos hlt]
      rcases heapOrdered_node.mp hl with ⟨h1, h2, h3, h4⟩
      have hsz' : ll.size + lr.size ≤ fuel := by
        simp only [size] at hsz; omega
      refine heapOrdered_node.mpr ⟨?_, ?_, ih hsz' h3 h4, hr⟩
      · intro x hx
        rw [vals_siftTopF, Multiset.mem_cons, Multiset.mem_add] at hx
        rcases hx with rfl | hx | hx
        · exact le_of_lt hlt
        · exact h1 x hx
        · exact h2 x hx
      · exact vals_le_of_rootD_le hr (le_of_not_lt hc)
  | case10 fuel lv li ll lr rv ri rl rr hc hlt =>
      intro hsz hl hr
      rw [siftTopF, if_neg hc, if_neg hlt]
      refine heapOrdered_node.mpr ⟨?_, ?_, hl, hr⟩
      · exact vals_le_of_rootD_le hl (le_of_not_lt hlt)
      · exact vals_le_of_rootD_le hr
          (le_trans (le_of_not_lt hc) (le_of_not_lt hlt))

theorem heapOrdered_siftTop (v : α) (i : Int) (l r : HTree α) :
    l.heapOrdered → r.heapOrdered → (siftTop v i l r).heapOrdered :=
  heapOrdered_siftTopF v i (l.size + r.size) l r le_rfl

/-! ### add_result lemmas -/

theorem addResult_of_lt {rv : α} {ri : Int} {l r : HTree α} {d : α} (i : Int)
    (h : d < rv) : (node rv ri l r).addResult d i = siftTop d i l r := by
  simp [addResult, replaceRootDown, if_pos h]

theorem addResult_of_not_lt {rv : α} {ri : Int} {l r : HTree α} {d : α} (i : Int)
    (h : ¬ d < rv) : (node rv ri l r).addResult d i = node rv ri l r := by
  simp [addResult, if_neg h]

@[simp] theorem addResult_leaf (d : α) (i : Int) :
    (leaf : HTree α).addResult d i = leaf := rfl

theorem heapOrdered_addResult {t : HTree α} (h : t.heapOrdered) (d : α) (i : Int) :
    (t.addResult d i).heapOrdered := by
  cases t with
  | leaf => exact heapOrdered_leaf
  | node rv ri l r =>
      rcases lt_or_le d rv with hlt | hle
      · rw [addResult_of_lt i hlt]
        exact heapOrdered_siftTop d i l r (heapOrdered_node.mp h).2.2.1
          (heapOrdered_node.mp h).2.2.2
      · rwa [addResult_of_not_lt i (not_lt.mpr hle)]

theorem card_addResult (t : HTree α) (d : α) (i : Int) :
    (t.addResult d i).entries.card = t.entries.card := by
  cases t with
  | leaf => rfl
  | node rv ri l r =>
      rcases lt_or_le d rv with hlt | hle
      · rw [addResult_of_lt i hlt, entries_siftTop]; simp
      · rw [addResult_of_not_lt i (not_lt.mpr hle)]

/-! ### heap_heapify lemmas -/

theorem entries_heapifyTree (sent : α) (k : Nat) :
    (heapifyTree sent k).entries = Multiset.replicate k (sent, -1) := by
  induction k with
  | zero => simp [heapifyTree]
  | succ k ih =>
      rw [heapifyTree, entries_node, ih, entries_leaf, add_zero,
        Multiset.replicate_succ]

theorem heapOrdered_heapifyTree (sent : α) (k : Nat) :
    (heapifyTree sent k).heapOrdered := by
  induction k with
  | zero =>
      rw [heapifyTree]
      exact heapOrdered_leaf
  | succ k ih =>
      rw [heapifyTree]
      refine heapOrdered_node.mpr ⟨?_, by simp, ih, trivial⟩
      intro x hx
      rw [vals, entries_heapifyTree, Multiset.map_replicate] at hx
      rw [Multiset.eq_of_mem_replicate hx]

/-! ### The top-k selection invariant

The state of one query's heap after the admission loop has consumed the
candidate prefix `done` (sentinel `C::neutral()` is `⊤`). -/

variable [OrderTop α]

structure TopkInv (k : Nat) (done : List (α × Int)) (t : HTree α) : Prop where
  csize : t.entries.card = k
  ordered : t.heapOrdered
  sub : t.entries ≤ Multiset.replicate k ((⊤ : α), -1) + (done : Multiset (α × Int))
  out : ∀ c ∈ done, c ∉ t.entries → t.rootD ⊤ ≤ c.1
  scount : t.entries.count ((⊤ : α), -1) = k - min k done.length

/-- If the sentinel value is still stored somewhere, it is the root
(the root is the maximum). -/
theorem rootD_eq_top_of_top_mem {t : HTree α} (h : t.heapOrdered)
    (hmem : (⊤ : α) ∈ t.vals) : t.rootD ⊤ = ⊤ :=
  top_le_iff.mp (val_le_rootD h ⊤ ⊤ hmem)

/-- Any stored pair carrying the sentinel value is the full sentinel
pair `(⊤, -1)`: real candidates have values `< ⊤`. -/
theorem sentinel_pair_of_top {k : Nat} {done : List (α × Int)} {t : HTree α}
    (inv : TopkInv k done t) (hdone : ∀ c' ∈ done, c'.1 < (⊤ : α))
    {ri : Int} (hmem : ((⊤ : α), ri) ∈ t.entries) : ri = -1 := by
  have hmem' := Multiset.mem_of_le inv.sub hmem
  rw [Multiset.mem_add] at hmem'
  rcases hmem' with h | h
  · exact congrArg Prod.snd (Multiset.eq_of_mem_replicate h)
  · exact absurd (hdone _ (by exact_mod_cast h)) (lt_irrefl _)

theorem TopkInv.step {k : Nat} {done : List (α × Int)} {t : HTree α}
    (inv : TopkInv k done t) (hk : 0 < k)
    (hdone : ∀ c' ∈ done, c'.1 < (⊤ : α)) {c : α × Int} (hc : c.1 < (⊤ : α)) :
    TopkInv k (done ++ [c]) (t.addResult c.1 c.2) := by
  cases t with
  | leaf =>
      exfalso
      have := inv.csize
      simp at this
      omega
  | node rv ri l r =>
      rcases heapOrdered_node.mp inv.ordered with ⟨hbl, hbr, hol, hor⟩
      have hcne : c ≠ ((⊤ : α), -1) := by
        intro h
        rw [h] at hc
        exact lt_irrefl _ hc
      have hcoe : ((done ++ [c] : List (α × Int)) : Multiset (α × Int)) =
          (done : Multiset (α × Int)) + {c} := rfl
      rcases lt_or_le c.1 rv with hlt | hle
      · -- admitted: pop the root, push c
        rw [addResult_of_lt c.2 hlt]
        have hent : (siftTop c.1 c.2 l r).entries = c ::ₘ (l.entries + r.entries) := by
          rw [entries_siftTop]
        have hentt : (node rv ri l r).entries = (rv, ri) ::ₘ (l.entries + r.entries) :=
          entries_node rv ri l r
        have hR : l.entries + r.entries ≤
            Multiset.replicate k ((⊤ : α), -1) + (done : Multiset (α × Int)) :=
          le_trans (le_trans (Multiset.le_cons_self _ _) (le_of_eq hentt.symm)) inv.sub
        have hroot' : (siftTop c.1 c.2 l r).rootD ⊤ ≤ rv := by
          have hmem := rootD_mem (siftTop_ne_leaf c.1 c.2 l r) (⊤ : α)
          rw [vals_siftTop, Multiset.mem_cons, Multiset.mem_add] at hmem
          rcases hmem with h | h | h
          · rw [h]; exact le_of_lt hlt
          · exact hbl _ h
          · exact hbr _ h
        refine ⟨?_, ?_, ?_, ?_, ?_⟩
        · rw [hent]
          have := inv.csize
          rw [hentt] at this
          simpa using this
        · exact heapOrdered_siftTop c.1 c.2 l r hol hor
        · rw [hent, hcoe]
          calc c ::ₘ (l.entries + r.entries)
              ≤ c ::ₘ (Multiset.replicate k ((⊤ : α), -1) + (done : Multiset (α × Int))) :=
                Multiset.cons_le_cons c hR
            _ = Multiset.replicate k ((⊤ : α), -1) + ((done : Multiset (α × Int)) + {c}) := by
                simp only [← Multiset.singleton_add]
                abel
        · intro c' hc' hnot
          rw [hent, Multiset.mem_cons] at hnot
          push_neg at hnot
          rcases List.mem_append.mp hc' with hmemd | hmemc
          · by_cases hmem : c' ∈ (node rv ri l r).entries
            · rw [hentt, Multiset.mem_cons, Multiset.mem_add] at hmem
              rcases hmem with rfl | h | h
              · exact hroot'
              · exact absurd (Multiset.mem_add.mpr (Or.inl h)) hnot.2
              · exact absurd (Multiset.mem_add.mpr (Or.inr h)) hnot.2
            · exact le_trans hroot' (by simpa using inv.out c' hmemd hmem)
          · exfalso
            have : c' = c := by simpa using hmemc
            exact hnot.1 this
        · rw [hent, Multiset.count_cons_of_ne (Ne.symm hcne)]
          have hcount := inv.scount
          rw [hentt] at hcount
          by_cases hrv : (rv, ri) = ((⊤ : α), -1)
          · rw [hrv, Multiset.count_cons_self] at hcount
            simp only [List.length_append, List.length_singleton]
            omega
          · rw [Multiset.count_cons_of_ne (Ne.symm hrv)] at hcount
            -- no sentinel can remain below the root
            have hzero : (l.entries + r.entries).count ((⊤ : α), -1) = 0 := by
              by_contra hpos
              have hmemS : ((⊤ : α), -1) ∈ (node rv ri l r).entries := by
                rw [hentt, Multiset.mem_cons]
                exact Or.inr (Multiset.count_pos.mp (Nat.pos_of_ne_zero hpos))
              have htop : (⊤ : α) ∈ (node rv ri l r).vals := by
                have := Multiset.mem_map_of_mem Prod.fst hmemS
                exact this
              have hrvtop : rv = (⊤ : α) := by
                have := rootD_eq_top_of_top_mem inv.ordered htop
                simpa using this
              subst hrvtop
              have hri : ri = -1 :=
                sentinel_pair_of_top inv hdone
                  (by rw [hentt]; exact Multiset.mem_cons_self _ _)
              exact hrv (by rw [hri])
            rw [hzero] at hcount ⊢
            simp only [List.length_append, List.length_singleton]
            omega
      · -- rejected: the heap is unchanged
        rw [addResult_of_not_lt c.2 (not_lt.mpr hle)]
        refine ⟨inv.csize, inv.ordered, ?_, ?_, ?_⟩
        · refine le_trans inv.sub ?_
          rw [hcoe, ← add_assoc]
          exact Multiset.le_add_right _ _
        · intro c' hc' hnot
          rcases List.mem_append.mp hc' with hmemd | hmemc
          · exact inv.out c' hmemd hnot
          · have : c' = c := by simpa using hmemc
            subst this
            simpa using hle
        · have hcount := inv.scount
          have hzero : (node rv ri l r).entries.count ((⊤ : α), -1) = 0 := by
            by_contra hpos
            have hmemS : ((⊤ : α), -1) ∈ (node rv ri l r).entries :=
              Multiset.count_pos.mp (Nat.pos_of_ne_zero hpos)
            have htop : (⊤ : α) ∈ (node rv ri l r).vals :=
              Multiset.mem_map_of_mem Prod.fst hmemS
            have hrvtop : rv = (⊤ : α) := by
              have := rootD_eq_top_of_top_mem inv.ordered htop
              simpa using this
            rw [hrvtop] at hle
            exact absurd (lt_of_lt_of_le hc hle) (lt_irrefl _)
          rw [hzero]
          rw [hzero] at hcount
          simp only [List.length_append, List.length_singleton]
          omega

theorem TopkInv.init (k : Nat) : TopkInv (α := α) k [] (heapifyTree ⊤ k) where
  csize := by simp [entries_heapifyTree]
  ordered := heapOrdered_heapifyTree ⊤ k
  sub := by simp [entries_heapifyTree]
  out := by simp
  scount := by simp [entries_heapifyTree, Multiset.count_replicate]

theorem topkFold_cons (t : HTree α) (c : α × Int) (cs : List (α × Int)) :
    topkFold t (c :: cs) = topkFold (t.addResult c.1 c.2) cs := rfl

theorem TopkInv.fold {k : Nat} (hk : 0 < k) {done : List (α × Int)} {t : HTree α}
    (inv : TopkInv k done t) (hdone : ∀ c ∈ done, c.1 < (⊤ : α))
    (cs : List (α × Int)) (hcs : ∀ c ∈ cs, c.1 < (⊤ : α)) :
    TopkInv k (done ++ cs) (topkFold t cs) := by
  induction cs generalizing done t with
  | nil => simpa [topkFold]
  | cons c rest ih =>
      rw [topkFold_cons]
      have hstep := inv.step hk hdone (hcs c (by simp))
      have hdone' : ∀ c' ∈ done ++ [c], c'.1 < (⊤ : α) := by
        intro c' hc'
        rcases List.mem_append.mp hc' with h | h
        · exact hdone c' h
        · rw [List.mem_singleton.mp h]; exact hcs c (by simp)
      have := ih hstep hdone' (fun c' hc' => hcs c' (by simp [hc']))
      simpa using this

/-- After at least `k` real candidates, no sentinel pair is left and the
heap content is a sub-multiset of the candidates. -/
theorem TopkInv.final {k : Nat} {cs : List (α × Int)} {t : HTree α}
    (inv : TopkInv k cs t) (hcs : ∀ c ∈ cs, c.1 < (⊤ : α))
    (hlen : k ≤ cs.length) : t.entries ≤ (cs : Multiset (α × Int)) := by
  rw [Multiset.le_iff_count]
  intro e
  have hsub := Multiset.le_iff_count.mp inv.sub e
  rw [Multiset.count_add, Multiset.count_replicate] at hsub
  by_cases he : e = ((⊤ : α), -1)
  · subst he
    have := inv.scount
    have hmin : min k cs.length = k := by omega
    rw [hmin] at this
    simp [this]
  · rw [if_neg (fun h => he h.symm)] at hsub
    simpa using hsub

@[simp] theorem topkFold_leaf (cs : List (α × Int)) :
    topkFold (leaf : HTree α) cs = leaf := by
  induction cs with
  | nil => rfl
  | cons c rest ih => rw [topkFold_cons, addResult_leaf, ih]

instance sortRelTotal : IsTotal (α × Int) (fun a b => a.1 ≤ b.1) :=
  ⟨fun a b => le_total a.1 b.1⟩

instance sortRelTrans : IsTrans (α × Int) (fun a b => a.1 ≤ b.1) :=
  ⟨fun a b c => le_trans⟩

theorem reorder_perm (t : HTree α) : (reorder t : Multiset (α × Int)) = t.entries := by
  rw [reorder, ← entriesL_coe]
  exact Quot.sound (List.perm_insertionSort _ _)

theorem reorder_sorted (t : HTree α) :
    List.Sorted (fun a b => a.1 ≤ b.1) (reorder t) :=
  List.sorted_insertionSort _ _

/-- The per-query direct-path pipeline
(`SingleResultHandler`: `begin(i)`, `add_result` for each candidate,
`end()`), producing the query's `k` output slots. -/
def singleQueryTopk [OrderTop α] (k : Nat) (cs : List (α × Int)) : List (α × Int) :=
  reorder (topkFold (heapifyTree ⊤ k) cs)

/-- Correctness of the per-query top-k accumulation: with `ny ≥ k`
candidates of distinct ids and non-sentinel values, the output has
exactly `k` slots, sorted by value in the polarity order, its pairs are
candidates with pairwise distinct ids, and every kept value is at most
every non-kept candidate's value (argmin-k in the polarity order). -/
theorem singleQueryTopk_spec (k : Nat) (cs : List (α × Int))
    (hvals : ∀ c ∈ cs, c.1 < (⊤ : α)) (hlen : k ≤ cs.length)
    (hids : (cs.map Prod.snd).Nodup) :
    (singleQueryTopk k cs).length = k ∧
    List.Sorted (fun a b => a.1 ≤ b.1) (singleQueryTopk k cs) ∧
    (∀ e ∈ singleQueryTopk k cs, e ∈ cs) ∧
    ((singleQueryTopk k cs).map Prod.snd).Nodup ∧
    (∀ c ∈ cs, c.2 ∉ (singleQueryTopk k cs).map Prod.snd →
      ∀ e ∈ singleQueryTopk k cs, e.1 ≤ c.1) := by
  rcases Nat.eq_zero_or_pos k with rfl | hk
  · have hempty : singleQueryTopk 0 cs = [] := by
      rw [singleQueryTopk]
      rw [show heapifyTree (⊤ : α) 0 = leaf from by rw [heapifyTree]]
      rw [topkFold_leaf]
      rfl
    simp [hempty]
  · have inv : TopkInv k cs (topkFold (heapifyTree ⊤ k) cs) := by
      have := (TopkInv.init (α := α) k).fold hk (by simp) cs hvals
      simpa using this
    set t := topkFold (heapifyTree (⊤ : α) k) cs with ht
    have hperm : (singleQueryTopk k cs : Multiset (α × Int)) = t.entries := reorder_perm t
    have hent_le : t.entries ≤ (cs : Multiset (α × Int)) := inv.final hvals hlen
    have hmem : ∀ e ∈ singleQueryTopk k cs, e ∈ t.entries := by
      intro e he
      have : e ∈ (singleQueryTopk k cs : Multiset (α × Int)) := by
        simpa using he
      rwa [hperm] at this
    refine ⟨?_, reorder_sorted t, ?_, ?_, ?_⟩
    · have := congrArg Multiset.card hperm
      simp only [Multiset.coe_card] at this
      rw [this, inv.csize]
    · intro e he
      have := Multiset.mem_of_le hent_le (hmem e he)
      simpa using this
    · have hnodup : (t.entries.map Prod.snd).Nodup := by
        refine Multiset.nodup_of_le (Multiset.map_le_map hent_le) ?_
        have : ((cs.map Prod.snd : List Int) : Multiset Int).Nodup := by
          rwa [Multiset.coe_nodup]
        simpa using this
      have : ((singleQueryTopk k cs).map Prod.snd : Multiset Int) =
          t.entries.map Prod.snd := by
        rw [← hperm]
        simp
      rw [← Multiset.coe_nodup, this]
      exact hnodup
    · intro c hc hcid e he
      have hcnot : c ∉ t.entries := by
        intro hmem'
        apply hcid
        have : c ∈ singleQueryTopk k cs := by
          have : c ∈ (singleQueryTopk k cs : Multiset (α × Int)) := by
            rw [hperm]; exact hmem'
          simpa using this
        exact List.mem_map_of_mem Prod.snd this
      have hroot : t.rootD ⊤ ≤ c.1 := inv.out c hc hcnot
      have he' : e.1 ∈ t.vals := Multiset.mem_map_of_mem Prod.fst (hmem e he)
      exact le_trans (val_le_rootD inv.ordered ⊤ e.1 he') hroot

/-! ### The blocked `add_results` loop equals the one-at-a-time loop -/

theorem addResultsLoop_eq_topkFold (cs : List (α × Int)) :
    ∀ (t : HTree α) (x : α), addResultsLoop t (t.rootD x) cs = topkFold t cs := by
  induction cs with
  | nil => intro t x; rfl
  | cons c rest ih =>
      intro t x
      cases t with
      | leaf =>
          rw [addResultsLoop]
          simp only [rootD_leaf, replaceRootDown]
          rw [topkFold_cons, addResult_leaf]
          split
          · exact ih leaf x
          · exact ih leaf x
      | node rv ri l r =>
          rw [addResultsLoop]
          simp only [rootD_node, replaceRootDown]
          rw [topkFold_cons]
          by_cases h : c.1 < rv
          · rw [if_pos h, addResult_of_lt c.2 h]
            exact ih (siftTop c.1 c.2 l r) rv
          · rw [if_neg h, addResult_of_not_lt c.2 h]
            exact ih (node rv ri l r) x

end HTree

/-- Split a list into consecutive blocks of `bs` elements: the blocking
`for (j0 = 0; j0 < ny; j0 += bs_y) { j1 = min(j0 + bs_y, ny); ... }` of
the GEMM path (distances.cpp:464-466, 525-527). -/
def chunkListAux {β : Type} (bs : Nat) : Nat → List β → List (List β)
  | 0, _ => []
  | _ + 1, [] => []
  | fuel + 1, a :: t => (a :: t).take bs :: chunkListAux bs fuel ((a :: t).drop bs)

def chunkList {β : Type} (bs : Nat) (l : List β) : List (List β) :=
  chunkListAux bs l.length l

theorem chunkListAux_join {β : Type} (bs : Nat) (hbs : 0 < bs) :
    ∀ (fuel : Nat) (l : List β), l.length ≤ fuel →
      (chunkListAux bs fuel l).flatten = l := by
  intro fuel
  induction fuel with
  | zero =>
      intro l hl
      have : l = [] := List.eq_nil_of_length_eq_zero (by omega)
      simp [this, chunkListAux]
  | succ n ih =>
      intro l hl
      cases l with
      | nil => rfl
      | cons a t =>
          rw [chunkListAux, List.flatten_cons]
          rw [ih ((a :: t).drop bs)
            (by simp only [List.length_drop, List.length_cons] at hl ⊢; omega),
            List.take_append_drop]

theorem chunkList_join {β : Type} (bs : Nat) (hbs : 0 < bs) (l : List β) :
    (chunkList bs l).flatten = l :=
  chunkListAux_join bs hbs l.length l le_rfl

namespace HTree

variable {α : Type} [LinearOrder α] [OrderTop α]

/-- The GEMM-path per-query pipeline: `begin_multiple` heapifies the
query's slots once (distances.cpp:208-214), each database block goes
through `add_results` (the threshold is re-read from `heap_dis[0]` at
block entry and after every push), and `end_multiple` reorders
(distances.cpp:235-240). -/
def blasQueryTopk (k bs : Nat) (cs : List (α × Int)) : List (α × Int) :=
  reorder ((chunkList bs cs).foldl
    (fun t ch => addResultsLoop t (t.rootD ⊤) ch) (heapifyTree ⊤ k))

theorem foldl_addResultsLoop_eq (x : α) (chs : List (List (α × Int))) :
    ∀ t : HTree α,
      chs.foldl (fun t ch => addResultsLoop t (t.rootD x) ch) t =
        topkFold t chs.flatten := by
  induction chs with
  | nil => intro t; rfl
  | cons ch rest ih =>
      intro t
      rw [List.foldl_cons, List.flatten_cons, addResultsLoop_eq_topkFold, ih,
        topkFold, topkFold, topkFold, List.foldl_append]

/-- Block decomposition is invisible: the GEMM-path per-query pipeline
computes exactly the direct-path per-query pipeline. -/
theorem blasQueryTopk_eq_singleQueryTopk (k bs : Nat) (hbs : 0 < bs)
    (cs : List (α × Int)) : blasQueryTopk k bs cs = singleQueryTopk k cs := by
  rw [blasQueryTopk, singleQueryTopk, foldl_addResultsLoop_eq, chunkList_join bs hbs]

end HTree

/-! ## Polarity instantiations and the four exhaustive kernels -/

/-- Value type of the `CMax<float, int64_t>` polarity (L2² searches):
rationals with the sentinel `C::neutral()` (`HUGE_VAL`) as `⊤`. -/
abbrev CMaxV : Type := WithTop ℚ

/-- Value type of the `CMin<float, int64_t>` polarity (inner-product
searches): rationals with sentinel `-HUGE_VAL`; as the order dual of
`WithBot ℚ` the sentinel is again the `⊤` of the heap order, so the
generic max-heap is a min-heap on actual similarities. -/
abbrev CMinV : Type := (WithBot ℚ)ᵒᵈ

/-- Embed an actual L2² distance into the `CMax` value type. -/
def toCMax (q : ℚ) : CMaxV := ((q : ℚ) : WithTop ℚ)

/-- Embed an actual similarity into the `CMin` value type. -/
def toCMin (q : ℚ) : CMinV := OrderDual.toDual ((q : ℚ) : WithBot ℚ)

theorem toCMax_lt_top (q : ℚ) : toCMax q < (⊤ : CMaxV) := by
  simp [toCMax]

theorem toCMin_lt_top (q : ℚ) : toCMin q < (⊤ : CMinV) := by
  simp only [toCMin]
  exact WithBot.bot_lt_coe q

/-- The candidate stream of the inner `j`-loop for one query row `xi`
(distances.cpp:389-393): the inner product against every database row,
in index order, paired with the absolute index `j`. -/
def ipCandidates (xi : List ℚ) (Y : List (List ℚ)) : List (CMinV × Int) :=
  Y.enum.map (fun p => (toCMin (fvec_inner_product xi p.2), (p.1 : Int)))

/-- The candidate stream of the inner `j`-loop of `exhaustive_L2sqr_seq`
(distances.cpp:425-429). -/
def l2Candidates (xi : List ℚ) (Y : List (List ℚ)) : List (CMaxV × Int) :=
  Y.enum.map (fun p => (toCMax (fvec_L2sqr xi p.2), (p.1 : Int)))

/-- `exhaustive_inner_product_seq` (distances.cpp:364-400): one
independent `SingleResultHandler` per query; each query's `k` output
slots are overwritten (`begin`/`add_result`*/`end`); the `check_period`
blocking of the query loop visits each query exactly once.  `init` is
the caller's heap buffer (`ha->val`/`ha->ids`), one slot list per
query; slots beyond `nx` are not touched. -/
def exhaustive_inner_product_seq (init : List (List (CMinV × Int)))
    (X Y : List (List ℚ)) (k : Nat) : List (List (CMinV × Int)) :=
  X.map (fun xi => HTree.singleQueryTopk k (ipCandidates xi Y)) ++ init.drop X.length

/-- `exhaustive_L2sqr_seq` (distances.cpp:403-436). -/
def exhaustive_L2sqr_seq (init : List (List (CMaxV × Int)))
    (X Y : List (List ℚ)) (k : Nat) : List (List (CMaxV × Int)) :=
  X.map (fun xi => HTree.singleQueryTopk k (l2Candidates xi Y)) ++ init.drop X.length

/-- Tunable `distance_compute_blas_threshold` (distances.cpp:572). -/
def distance_compute_blas_threshold : Nat := 20

/-- Tunable `distance_compute_blas_query_bs` (distances.cpp:573). -/
def distance_compute_blas_query_bs : Nat := 4096

/-- Tunable `distance_compute_blas_database_bs` (distances.cpp:574). -/
def distance_compute_blas_database_bs : Nat := 1024

/-- `exhaustive_inner_product_blas` (distances.cpp:444-484): early
return on empty shapes (`if (nx == 0 || ny == 0) return`); otherwise
the queries are processed in `bs_x` blocks (each query in exactly one
block: `begin_multiple` heapifies it, the `j`-blocks feed
`add_results` with exact GEMM dot products, `end_multiple` reorders). -/
def exhaustive_inner_product_blas (init : List (List (CMinV × Int)))
    (X Y : List (List ℚ)) (k : Nat) : List (List (CMinV × Int)) :=
  if X.length = 0 ∨ Y.length = 0 then init
  else
    ((chunkList distance_compute_blas_query_bs X).map
      (fun blk => blk.map (fun xi =>
        HTree.blasQueryTopk k distance_compute_blas_database_bs
          (ipCandidates xi Y)))).flatten ++ init.drop X.length

/-- One tile row of `exhaustive_L2sqr_blas` (distances.cpp:538-552):
the GEMM dot products transformed by
`dis = x_norms[i] + y_norms[j] - 2*ip`, with negative values clamped to
`0`, paired with the absolute index `j`. -/
def l2BlasCandidates (xnorm : ℚ) (ynorms : List ℚ) (xi : List ℚ)
    (Y : List (List ℚ)) : List (CMaxV × Int) :=
  Y.enum.map (fun p =>
    (toCMax (
      let dis := xnorm + ynorms.getD p.1 0 - 2 * fvec_inner_product xi p.2
      if dis < 0 then 0 else dis), (p.1 : Int)))

/-- `exhaustive_L2sqr_blas` (distances.cpp:492-558): early return on
empty shapes; `x_norms` is always computed locally; `y_norms` is the
caller's buffer when supplied, else computed; tiles are transformed by
the norm identity with clamping before reaching the handler. -/
def exhaustive_L2sqr_blas (init : List (List (CMaxV × Int)))
    (X Y : List (List ℚ)) (k : Nat) (y_norms : Option (List ℚ)) :
    List (List (CMaxV × Int)) :=
  if X.length = 0 ∨ Y.length = 0 then init
  else
    let xnorms := fvec_norms_L2sqr X
    let ynorms := y_norms.getD (fvec_norms_L2sqr Y)
    ((chunkList distance_compute_blas_query_bs X.enum).map
      (fun blk => blk.map (fun p =>
        HTree.blasQueryTopk k distance_compute_blas_database_bs
          (l2BlasCandidates (xnorms.getD p.1 0) ynorms p.2 Y)))).flatten
      ++ init.drop X.length

/-- `knn_inner_product` (distances.cpp:577-589): a `CMin` heap handler
over the caller's buffers; direct path iff
`nx < distance_compute_blas_threshold`. -/
def knn_inner_product (init : List (List (CMinV × Int)))
    (X Y : List (List ℚ)) (k : Nat) : List (List (CMinV × Int)) :=
  if X.length < distance_compute_blas_threshold then
    exhaustive_inner_product_seq init X Y k
  else
    exhaustive_inner_product_blas init X Y k

/-- `knn_L2sqr` (distances.cpp:594-609): a `CMax` heap handler; direct
path iff `nx < distance_compute_blas_threshold`; `y_norm2` is forwarded
to the GEMM path. -/
def knn_L2sqr (init : List (List (CMaxV × Int)))
    (X Y : List (List ℚ)) (k : Nat) (y_norm2 : Option (List ℚ)) :
    List (List (CMaxV × Int)) :=
  if X.length < distance_compute_blas_threshold then
    exhaustive_L2sqr_seq init X Y k
  else
    exhaustive_L2sqr_blas init X Y k y_norm2

/-! ## Equivalence of the direct and GEMM paths -/

theorem chunkList_map_flatten {β γ : Type} (bs : Nat) (hbs : 0 < bs)
    (f : β → γ) (l : List β) :
    ((chunkList bs l).map (List.map f)).flatten = l.map f := by
  rw [← List.map_flatten, chunkList_join bs hbs]

theorem database_bs_pos : 0 < distance_compute_blas_database_bs := by
  norm_num [distance_compute_blas_database_bs]

theorem query_bs_pos : 0 < distance_compute_blas_query_bs := by
  norm_num [distance_compute_blas_query_bs]

/-- With correct norms and rows of a common length, the transformed GEMM
tile entries are exactly the L2² distances (the clamp never fires in
exact arithmetic). -/
theorem l2BlasCandidates_eq {d : Nat} {xi : List ℚ} {Y : List (List ℚ)}
    (hxi : xi.length = d) (hY : ∀ row ∈ Y, row.length = d) :
    l2BlasCandidates (fvec_norm_L2sqr xi) (fvec_norms_L2sqr Y) xi Y =
      l2Candidates xi Y := by
  unfold l2BlasCandidates l2Candidates
  apply List.map_congr_left
  intro p hp
  have hget : Y[p.1]? = some p.2 := List.mem_enum_iff_getElem?.mp hp
  have hmem : p.2 ∈ Y := by
    have := List.getElem?_eq_some.mp hget
    rcases this with ⟨hlt, heq⟩
    exact heq ▸ List.getElem_mem hlt
  have hnorm : (fvec_norms_L2sqr Y).getD p.1 0 = fvec_norm_L2sqr p.2 := by
    rw [fvec_norms_L2sqr, List.getD_eq_getElem?_getD, List.getElem?_map, hget]
    rfl
  have hid : fvec_norm_L2sqr xi + fvec_norm_L2sqr p.2 -
      2 * fvec_inner_product xi p.2 = fvec_L2sqr xi p.2 :=
    (l2sqr_norm_identity xi p.2 (by rw [hxi, hY p.2 hmem])).symm
  have harg : (let dis := fvec_norm_L2sqr xi + (fvec_norms_L2sqr Y).getD p.1 0 -
        2 * fvec_inner_product xi p.2
      if dis < 0 then 0 else dis) = fvec_L2sqr xi p.2 := by
    simp only [hnorm, hid]
    rw [if_neg (not_lt.mpr (fvec_L2sqr_nonneg _ _))]
  rw [harg]

/-- GEMM path = direct path for the inner-product kernel, as long as
the database is non-empty or there are no queries (the GEMM kernel
early-returns on `ny == 0` without touching the buffers, while the
direct path still initializes each query's slots). -/
theorem exhaustive_inner_product_blas_eq_seq (init : List (List (CMinV × Int)))
    (X Y : List (List ℚ)) (k : Nat) (hny : 0 < Y.length ∨ X = []) :
    exhaustive_inner_product_blas init X Y k =
      exhaustive_inner_product_seq init X Y k := by
  by_cases hx0 : X.length = 0
  · have hXnil : X = [] := List.eq_nil_of_length_eq_zero hx0
    subst hXnil
    simp [exhaustive_inner_product_blas, exhaustive_inner_product_seq]
  · have hy0 : Y.length ≠ 0 := by
      rcases hny with h | h
      · omega
      · exact absurd (by rw [h]; rfl) hx0
    rw [exhaustive_inner_product_blas, if_neg (by push_neg; exact ⟨hx0, hy0⟩),
      exhaustive_inner_product_seq]
    congr 1
    rw [chunkList_map_flatten _ query_bs_pos]
    apply List.map_congr_left
    intro xi _
    exact HTree.blasQueryTopk_eq_singleQueryTopk _ _ database_bs_pos _

/-- GEMM path = direct path for the L2² kernel: needs well-formed rows
(for the norm identity) and either no supplied `y_norms` or correct
ones. -/
theorem exhaustive_L2sqr_blas_eq_seq (init : List (List (CMaxV × Int)))
    {d : Nat} (X Y : List (List ℚ)) (k : Nat) (y_norms : Option (List ℚ))
    (hX : ∀ row ∈ X, row.length = d) (hY : ∀ row ∈ Y, row.length = d)
    (hny : 0 < Y.length ∨ X = [])
    (hyn : y_norms = none ∨ y_norms = some (fvec_norms_L2sqr Y)) :
    exhaustive_L2sqr_blas init X Y k y_norms =
      exhaustive_L2sqr_seq init X Y k := by
  by_cases hx0 : X.length = 0
  · have hXnil : X = [] := List.eq_nil_of_length_eq_zero hx0
    subst hXnil
    simp [exhaustive_L2sqr_blas, exhaustive_L2sqr_seq]
  · have hy0 : Y.length ≠ 0 := by
      rcases hny with h | h
      · omega
      · exact absurd (by rw [h]; rfl) hx0
    rw [exhaustive_L2sqr_blas, if_neg (by push_neg; exact ⟨hx0, hy0⟩),
      exhaustive_L2sqr_seq]
    dsimp only
    have hynorm : y_norms.getD (fvec_norms_L2sqr Y) = fvec_norms_L2sqr Y := by
      rcases hyn with h | h <;> rw [h] <;> rfl
    congr 1
    have hmap : ∀ p ∈ X.enum,
        HTree.blasQueryTopk k distance_compute_blas_database_bs
          (l2BlasCandidates ((fvec_norms_L2sqr X).getD p.1 0)
            (y_norms.getD (fvec_norms_L2sqr Y)) p.2 Y) =
          HTree.singleQueryTopk k (l2Candidates p.2 Y) := by
      intro p hp
      have hget : X[p.1]? = some p.2 := List.mem_enum_iff_getElem?.mp hp
      have hmem : p.2 ∈ X := by
        rcases List.getElem?_eq_some.mp hget with ⟨hlt, heq⟩
        exact heq ▸ List.getElem_mem hlt
      have hxnorm : (fvec_norms_L2sqr X).getD p.1 0 = fvec_norm_L2sqr p.2 := by
        rw [fvec_norms_L2sqr, List.getD_eq_getElem?_getD, List.getElem?_map, hget]
        rfl
      rw [hxnorm, hynorm,
        l2BlasCandidates_eq (hX p.2 hmem) hY,
        HTree.blasQueryTopk_eq_singleQueryTopk _ _ database_bs_pos]
    have hcomp : X.map (fun xi => HTree.singleQueryTopk k (l2Candidates xi Y)) =
        X.enum.map (fun p => HTree.singleQueryTopk k (l2Candidates p.2 Y)) := by
      conv_lhs => rw [← List.enum_map_snd X]
      rw [List.map_map]
      rfl
    rw [chunkList_map_flatten _ query_bs_pos, hcomp]
    exact List.map_congr_left hmap

/-! ## Range search (`RangeSearchResultHandler`, distances.cpp:246)

Modelled from the spec: `RangeSearchResult`, `RangeSearchPartialResult`
and `RangeQueryResult` live in `faiss/impl/AuxIndexStructures.h`, which
is not part of this repository slice.  Per the spec (§3, §4.3.2), a
partial result is a per-tile shard of per-query append-only buckets of
`(distance, id)` pairs, created lazily, and destruction merges all
shards into the caller's result; within a query no order is guaranteed,
so the caller-visible result is the multiset of `(query, dist, id)`
triples. -/

section RangeSearch

variable {α : Type} [LinearOrder α]

/-- The pairs of one query's candidate row that pass the radius test
`C::cmp(radius, dis)` (strictly better than `radius` in the polarity
order), tagged with the query index. -/
def taggedFilter (radius : α) (p : Nat × List (α × Int)) :
    Multiset (Nat × α × Int) :=
  ((p.2.filter (fun c => c.1 < radius)).map (fun c => (p.1, c.1, c.2)) :
    List (Nat × α × Int))

/-- One bucket (`RangeQueryResult`): a query index and its appended
pairs.  A shard (`RangeSearchPartialResult`) is its buckets in creation
order. -/
def shardM (shard : List (Nat × List (α × Int))) : Multiset (Nat × α × Int) :=
  (shard.map (fun b => ((b.2.map (fun c => (b.1, c.1, c.2)) :
    List (Nat × α × Int)) : Multiset (Nat × α × Int)))).sum

/-- The state of `RangeSearchResultHandler`'s multiple-result API
(distances.cpp:298-302): the shards, the `j0` keys in shard creation
order, and the cursor `pr`. -/
structure RangeState (α : Type) where
  partial_results : List (List (Nat × List (α × Int)))
  j0s : List Nat
  pr : Nat

/-- Append new buckets to the shard at position `i` (`new_result` calls
on an existing `RangeSearchPartialResult`); at `i = length` this is the
`push_back` of a fresh shard. -/
def appendAt (nb : List (Nat × List (α × Int))) :
    List (List (Nat × List (α × Int))) → Nat →
      List (List (Nat × List (α × Int)))
  | [], _ => [nb]
  | s :: rest, 0 => (s ++ nb) :: rest
  | s :: rest, n + 1 => s :: appendAt nb rest n

/-- `RangeSearchResultHandler::add_results` (distances.cpp:312-344):
find the shard for this `j0` — cursor hit, wrap-around at `j0 == 0`, or
a brand-new shard — then record one bucket per query of the block with
the tile pairs that pass the radius test. -/
def rangeAddResults (radius : α) (s : RangeState α) (j0 : Nat)
    (iRows : List (Nat × List (α × Int))) : RangeState α :=
  let newBuckets := iRows.map (fun p => (p.1, p.2.filter (fun c => c.1 < radius)))
  if s.pr < s.j0s.length ∧ s.j0s.getD s.pr 0 = j0 then
    { partial_results := appendAt newBuckets s.partial_results s.pr
      j0s := s.j0s
      pr := s.pr + 1 }
  else if j0 = 0 ∧ 0 < s.j0s.length then
    { partial_results := appendAt newBuckets s.partial_results 0
      j0s := s.j0s
      pr := 1 }
  else
    { partial_results := s.partial_results ++ [newBuckets]
      j0s := s.j0s ++ [j0]
      pr := s.partial_results.length + 1 }

/-- Modelled from the spec: `RangeSearchPartialResult::merge` — the
caller-visible multiset of all shards' buckets. -/
def RangeState.merged (s : RangeState α) : Multiset (Nat × α × Int) :=
  (s.partial_results.map shardM).sum

/-- Number of database blocks `ceil(ny / bs)`. -/
def numBlocks (n bs : Nat) : Nat := (n + bs - 1) / bs

/-- The GEMM path feeding a range handler (the loop structure of
`exhaustive_*_blas`): for each query block, for each database block
`j0 = t·bs_y`, one `add_results` call on the tile. -/
def rangeBlasCore (radius : α) (ny bsx bsy : Nat)
    (rows : List (List (α × Int))) : RangeState α :=
  (chunkList bsx rows.enum).foldl
    (fun s blk =>
      (List.range (numBlocks ny bsy)).foldl
        (fun s' t =>
          rangeAddResults radius s' (t * bsy)
            (blk.map (fun p => (p.1, (p.2.drop (t * bsy)).take bsy))))
        s)
    ⟨[], [], 0⟩

/-- The direct path feeding a range handler
(`SingleResultHandler`, distances.cpp:262-292): per query, one bucket
holding the whole filtered row, merged at finalize. -/
def rangeSeqM (radius : α) (rows : List (List (α × Int))) :
    Multiset (Nat × α × Int) :=
  (rows.enum.map (taggedFilter radius)).sum

/-! ### The registry never loses a pair -/

theorem shardM_append (a b : List (Nat × List (α × Int))) :
    shardM (a ++ b) = shardM a + shardM b := by
  simp [shardM]

theorem merged_appendAt (nb : List (Nat × List (α × Int))) :
    ∀ (l : List (List (Nat × List (α × Int)))) (i : Nat),
      ((appendAt nb l i).map shardM).sum = (l.map shardM).sum + shardM nb := by
  intro l
  induction l with
  | nil => intro i; cases i <;> simp [appendAt]
  | cons s rest ih =>
      intro i
      cases i with
      | zero => simp [appendAt, shardM_append]; abel
      | succ n =>
          simp only [appendAt, List.map_cons, List.sum_cons, ih n]
          abel

/-- Whatever branch the `j0` registry takes, `add_results` adds exactly
the tile's passing pairs to the total. -/
theorem merged_rangeAddResults (radius : α) (s : RangeState α) (j0 : Nat)
    (iRows : List (Nat × List (α × Int))) :
    (rangeAddResults radius s j0 iRows).merged =
      s.merged +
        shardM (iRows.map (fun p => (p.1, p.2.filter (fun c => c.1 < radius)))) := by
  rw [rangeAddResults]
  split
  · rw [RangeState.merged, RangeState.merged]
    exact merged_appendAt _ _ _
  · split
    · rw [RangeState.merged, RangeState.merged]
      exact merged_appendAt _ _ _
    · rw [RangeState.merged, RangeState.merged]
      simp

theorem shardM_filter_buckets (radius : α) (iRows : List (Nat × List (α × Int))) :
    shardM (iRows.map (fun p => (p.1, p.2.filter (fun c => c.1 < radius)))) =
      (iRows.map (taggedFilter radius)).sum := by
  rw [shardM, List.map_map]
  rfl

theorem taggedFilter_flatten (radius : α) (i : Nat)
    (chs : List (List (α × Int))) :
    (chs.map (fun ch => taggedFilter radius (i, ch))).sum =
      taggedFilter radius (i, chs.flatten) := by
  induction chs with
  | nil => simp [taggedFilter]
  | cons ch rest ih =>
      rw [List.map_cons, List.sum_cons, ih]
      simp only [taggedFilter, List.flatten_cons, List.filter_append,
        List.map_append]
      rw [← Multiset.coe_add]

theorem drop_take_cover {β : Type} (bs : Nat) (hbs : 0 < bs) :
    ∀ (m : Nat) (cs : List β), cs.length ≤ m * bs →
      ((List.range m).map (fun t => (cs.drop (t * bs)).take bs)).flatten = cs := by
  intro m
  induction m with
  | zero =>
      intro cs h
      simp only [Nat.zero_mul, Nat.le_zero] at h
      rw [List.eq_nil_of_length_eq_zero h]
      rfl
  | succ m ih =>
      intro cs h
      rw [Nat.succ_mul] at h
      rw [List.range_succ_eq_map, List.map_cons, List.map_map,
        List.flatten_cons]
      have hfun : ((List.range m).map
            ((fun t => (cs.drop (t * bs)).take bs) ∘ Nat.succ)) =
          (List.range m).map (fun t => ((cs.drop bs).drop (t * bs)).take bs) := by
        apply List.map_congr_left
        intro t _
        have : (cs.drop bs).drop (t * bs) = cs.drop (Nat.succ t * bs) := by
          rw [List.drop_drop, Nat.succ_mul, Nat.add_comm]
        simp only [Function.comp]
        rw [this]
      rw [hfun, ih (cs.drop bs) (by simp only [List.length_drop]; omega)]
      simp

theorem le_numBlocks_mul (n bs : Nat) (hbs : 0 < bs) :
    n ≤ numBlocks n bs * bs := by
  rw [numBlocks]
  have h := Nat.lt_div_mul_add (a := n + bs - 1) hbs
  omega

theorem sum_map_add {γ δ : Type} (T : List γ) (g h : γ → Multiset δ) :
    (T.map (fun t => g t + h t)).sum = (T.map g).sum + (T.map h).sum := by
  induction T with
  | nil => simp
  | cons t rest ih => simp [ih]; abel

theorem sum_swap_chunks (radius : α) (bsy : Nat)
    (blk : List (Nat × List (α × Int))) (T : List Nat) :
    (T.map (fun t =>
      ((blk.map (fun p => (p.1, (p.2.drop (t * bsy)).take bsy))).map
        (taggedFilter radius)).sum)).sum =
    (blk.map (fun p => (T.map (fun t =>
      taggedFilter radius (p.1, (p.2.drop (t * bsy)).take bsy))).sum)).sum := by
  induction blk with
  | nil => simp
  | cons p rest ih =>
      rw [List.map_cons, List.sum_cons, ← ih]
      have heq : T.map (fun t =>
          (((p :: rest).map (fun q => (q.1, (q.2.drop (t * bsy)).take bsy))).map
            (taggedFilter radius)).sum) =
        T.map (fun t =>
          taggedFilter radius (p.1, (p.2.drop (t * bsy)).take bsy) +
            ((rest.map (fun q => (q.1, (q.2.drop (t * bsy)).take bsy))).map
              (taggedFilter radius)).sum) := by
        apply List.map_congr_left
        intro t _
        rw [List.map_cons, List.map_cons, List.sum_cons]
      rw [heq, sum_map_add]

/-- Folding `add_results` over the database blocks of one query block
adds exactly each query's filtered full row to the total. -/
theorem merged_jfold (radius : α) {bsy ny : Nat} (hbsy : 0 < bsy)
    (blk : List (Nat × List (α × Int))) (hrows : ∀ p ∈ blk, p.2.length = ny) :
    ∀ s : RangeState α,
      ((List.range (numBlocks ny bsy)).foldl
        (fun s' t => rangeAddResults radius s' (t * bsy)
          (blk.map (fun p => (p.1, (p.2.drop (t * bsy)).take bsy)))) s).merged =
      s.merged + (blk.map (taggedFilter radius)).sum := by
  -- first: a fold of add_results accumulates the per-call contributions
  have hfold : ∀ (T : List Nat) (s : RangeState α),
      ((T.foldl (fun s' t => rangeAddResults radius s' (t * bsy)
          (blk.map (fun p => (p.1, (p.2.drop (t * bsy)).take bsy)))) s)).merged =
        s.merged + (T.map (fun t =>
          ((blk.map (fun p => (p.1, (p.2.drop (t * bsy)).take bsy))).map
            (taggedFilter radius)).sum)).sum := by
    intro T
    induction T with
    | nil => intro s; simp
    | cons t rest ih =>
        intro s
        rw [List.foldl_cons, ih, merged_rangeAddResults,
          shardM_filter_buckets, List.map_cons, List.sum_cons, List.map_map]
        abel
  intro s
  rw [hfold]
  congr 1
  rw [sum_swap_chunks radius bsy blk]
  refine congrArg List.sum ?_
  apply List.map_congr_left
  intro p hp
  have : ((List.range (numBlocks ny bsy)).map (fun t =>
      taggedFilter radius (p.1, (p.2.drop (t * bsy)).take bsy))).sum =
    (((List.range (numBlocks ny bsy)).map (fun t =>
      (p.2.drop (t * bsy)).take bsy)).map
        (fun ch => taggedFilter radius (p.1, ch))).sum := by
    rw [List.map_map]
    rfl
  rw [this, taggedFilter_flatten,
    drop_take_cover bsy hbsy _ p.2 (by rw [hrows p hp]; exact le_numBlocks_mul ny bsy hbsy)]

/-- GEMM path = direct path for range search: the shard registry loses
no pair and duplicates none. -/
theorem merged_rangeBlasCore (radius : α) {ny : Nat} (bsx bsy : Nat)
    (hbsx : 0 < bsx) (hbsy : 0 < bsy) (rows : List (List (α × Int)))
    (hrows : ∀ r ∈ rows, r.length = ny) :
    (rangeBlasCore radius ny bsx bsy rows).merged = rangeSeqM radius rows := by
  rw [rangeBlasCore]
  have henum : ∀ p ∈ rows.enum, p.2.length = ny := by
    intro p hp
    have hget : rows[p.1]? = some p.2 := List.mem_enum_iff_getElem?.mp hp
    rcases List.getElem?_eq_some.mp hget with ⟨hlt, heq⟩
    exact hrows p.2 (heq ▸ List.getElem_mem hlt)
  have hblk : ∀ blk ∈ chunkList bsx rows.enum, ∀ p ∈ blk, p.2.length = ny := by
    intro blk hblk p hp
    apply henum
    rw [← chunkList_join bsx hbsx rows.enum]
    exact List.mem_flatten.mpr ⟨blk, hblk, hp⟩
  have hfold : ∀ (B : List (List (Nat × List (α × Int))))
      (hB : ∀ blk ∈ B, ∀ p ∈ blk, p.2.length = ny) (s : RangeState α),
      ((B.foldl (fun s blk =>
        (List.range (numBlocks ny bsy)).foldl
          (fun s' t => rangeAddResults radius s' (t * bsy)
            (blk.map (fun p => (p.1, (p.2.drop (t * bsy)).take bsy)))) s) s)).merged =
      s.merged + (B.map (fun blk => (blk.map (taggedFilter radius)).sum)).sum := by
    intro B
    induction B with
    | nil => intro _ s; simp
    | cons blk rest ih =>
        intro hB s
        rw [List.foldl_cons, ih (fun b hb => hB b (by simp [hb])),
          merged_jfold radius hbsy blk (hB blk (by simp))]
        simp only [List.map_cons, List.sum_cons]
        abel
  rw [hfold _ hblk]
  have hmerged0 : (RangeState.mk (α := α) [] [] 0).merged = 0 := by
    simp [RangeState.merged]
  rw [hmerged0, zero_add, rangeSeqM]
  have h1 : ((chunkList bsx rows.enum).map
      (fun blk => (blk.map (taggedFilter radius)).sum)).sum =
      ((chunkList bsx rows.enum).map
        (fun blk => blk.map (taggedFilter radius))).flatten.sum := by
    rw [List.sum_flatten, List.map_map]
    rfl
  rw [h1, ← List.map_flatten, chunkList_join bsx hbsx]

end RangeSearch

/-- `exhaustive_L2sqr_seq` feeding a `RangeSearchResultHandler`
(the direct path of `range_search_L2sqr`). -/
def exhaustive_L2sqr_seq_range (res : Multiset (Nat × CMaxV × Int))
    (X Y : List (List ℚ)) (radius : CMaxV) : Multiset (Nat × CMaxV × Int) :=
  res + rangeSeqM radius (X.map (fun xi => l2Candidates xi Y))

/-- `exhaustive_inner_product_seq` feeding a `RangeSearchResultHandler`. -/
def exhaustive_inner_product_seq_range (res : Multiset (Nat × CMinV × Int))
    (X Y : List (List ℚ)) (radius : CMinV) : Multiset (Nat × CMinV × Int) :=
  res + rangeSeqM radius (X.map (fun xi => ipCandidates xi Y))

/-- `exhaustive_L2sqr_blas` feeding a `RangeSearchResultHandler`
(early return on empty shapes, tiles transformed by the clamped norm
identity, shard registry merged at destruction). -/
def exhaustive_L2sqr_blas_range (res : Multiset (Nat × CMaxV × Int))
    (X Y : List (List ℚ)) (radius : CMaxV) (y_norms : Option (List ℚ)) :
    Multiset (Nat × CMaxV × Int) :=
  if X.length = 0 ∨ Y.length = 0 then res
  else
    let xnorms := fvec_norms_L2sqr X
    let ynorms := y_norms.getD (fvec_norms_L2sqr Y)
    res + (rangeBlasCore radius Y.length distance_compute_blas_query_bs
      distance_compute_blas_database_bs
      (X.enum.map (fun p => l2BlasCandidates (xnorms.getD p.1 0) ynorms p.2 Y))).merged

/-- `exhaustive_inner_product_blas` feeding a
`RangeSearchResultHandler`. -/
def exhaustive_inner_product_blas_range (res : Multiset (Nat × CMinV × Int))
    (X Y : List (List ℚ)) (radius : CMinV) : Multiset (Nat × CMinV × Int) :=
  if X.length = 0 ∨ Y.length = 0 then res
  else
    res + (rangeBlasCore radius Y.length distance_compute_blas_query_bs
      distance_compute_blas_database_bs
      (X.map (fun xi => ipCandidates xi Y))).merged

/-- `range_search_L2sqr` (distances.cpp:619-632): `CMax` polarity
(keep `dis` with `C::cmp(radius, dis)`, i.e. `dis < radius`), threshold
gate between the two paths. -/
def range_search_L2sqr (res : Multiset (Nat × CMaxV × Int))
    (X Y : List (List ℚ)) (radius : ℚ) : Multiset (Nat × CMaxV × Int) :=
  if X.length < distance_compute_blas_threshold then
    exhaustive_L2sqr_seq_range res X Y (toCMax radius)
  else
    exhaustive_L2sqr_blas_range res X Y (toCMax radius) none

/-- `range_search_inner_product` (distances.cpp:634-648): `CMin`
polarity (keep `dis` with `dis > radius` on similarities). -/
def range_search_inner_product (res : Multiset (Nat × CMinV × Int))
    (X Y : List (List ℚ)) (radius : ℚ) : Multiset (Nat × CMinV × Int) :=
  if X.length < distance_compute_blas_threshold then
    exhaustive_inner_product_seq_range res X Y (toCMin radius)
  else
    exhaustive_inner_product_blas_range res X Y (toCMin radius)

/-! ## Subset-distance kernels (distances.cpp:651-787) -/

/-- `fvec_inner_products_by_idx` (distances.cpp:657-674): `ip` is the
caller's output buffer; entry `(j, i)` is overwritten with the inner
product against row `ids[j][i]` of `y` unless that id is negative, in
which case the loop `continue`s and the entry keeps its prior value. -/
def fvec_inner_products_by_idx (ip : List (List ℚ)) (x y : List (List ℚ))
    (ids : List (List Int)) : List (List ℚ) :=
  (List.zip ip (List.zip x ids)).map (fun row =>
    (List.zip row.1 row.2.2).map (fun e =>
      if e.2 < 0 then e.1
      else fvec_inner_product row.2.1 (y.getD e.2.toNat [])))

/-- `fvec_L2sqr_by_idx` (distances.cpp:680-697): same guard, L2²
distances. -/
def fvec_L2sqr_by_idx (dis : List (List ℚ)) (x y : List (List ℚ))
    (ids : List (List Int)) : List (List ℚ) :=
  (List.zip dis (List.zip x ids)).map (fun row =>
    (List.zip row.1 row.2.2).map (fun e =>
      if e.2 < 0 then e.1
      else fvec_L2sqr row.2.1 (y.getD e.2.toNat [])))

/-- A checked access to row `id` of `y` (`y + d * ids[...]`): `none`
models an access outside the `y` array. -/
def yRowChecked (y : List (List ℚ)) (id : Int) : Option (List ℚ) :=
  if 0 ≤ id ∧ id.toNat < y.length then some (y.getD id.toNat []) else none

/-- `knn_inner_products_by_idx` (distances.cpp:730-759), one query:
heapify, then scan the id list, `break`ing at the first negative id
(distances.cpp:748); every non-negative id is dereferenced, so the
access is checked; finally reorder.  Returns `none` if an access is out
of bounds. -/
def knn_ip_by_idx_query (x_ : List ℚ) (y : List (List ℚ)) (k : Nat) :
    List Int → HTree CMinV → Option (HTree CMinV)
  | [], t => some t
  | id :: rest, t =>
      if id < 0 then some t
      else
        match yRowChecked y id with
        | none => none
        | some yr =>
            knn_ip_by_idx_query x_ y k rest
              (t.addResult (toCMin (fvec_inner_product x_ yr)) id)

/-- `knn_inner_products_by_idx` (distances.cpp:730-759). -/
def knn_inner_products_by_idx (x y : List (List ℚ)) (ids : List (List Int))
    (k : Nat) : Option (List (List (CMinV × Int))) :=
  (List.zip x ids).mapM (fun p =>
    (knn_ip_by_idx_query p.1 y k p.2 (HTree.heapifyTree ⊤ k)).map HTree.reorder)

/-- `knn_L2sqr_by_idx` (distances.cpp:761-787), one query: the scan has
**no** negative-id guard — every `ids[i*ny+j]` is dereferenced
(distances.cpp:777). -/
def knn_l2_by_idx_query (x_ : List ℚ) (y : List (List ℚ)) (k : Nat) :
    List Int → HTree CMaxV → Option (HTree CMaxV)
  | [], t => some t
  | id :: rest, t =>
      match yRowChecked y id with
      | none => none
      | some yr =>
          knn_l2_by_idx_query x_ y k rest
            (t.addResult (toCMax (fvec_L2sqr x_ yr)) id)

/-- `knn_L2sqr_by_idx` (distances.cpp:761-787). -/
def knn_L2sqr_by_idx (x y : List (List ℚ)) (ids : List (List Int))
    (k : Nat) : Option (List (List (CMaxV × Int))) :=
  (List.zip x ids).mapM (fun p =>
    (knn_l2_by_idx_query p.1 y k p.2 (HTree.heapifyTree ⊤ k)).map HTree.reorder)

/-- `inner_product_to_L2sqr` (distances.cpp:838-850): in-place rewrite
`dis[j][i] = nr1[j] + nr2[i] - 2 * dis[j][i]`.  Note: the source has no
clamp here. -/
def inner_product_to_L2sqr (dis : List (List ℚ)) (nr1 nr2 : List ℚ) :
    List (List ℚ) :=
  dis.enum.map (fun row =>
    row.2.enum.map (fun e => nr1.getD row.1 0 + nr2.getD e.1 0 - 2 * e.2))

/-! ## `fvec_renorm_L2` (distances.cpp:105-120)

The kernel uses `sqrtf`, so the exact-arithmetic model lives over `ℝ`. -/

/-- `fvec_norm_L2sqr` over `ℝ` (the squared row norm computed at
distances.cpp:111). -/
noncomputable def fvec_norm_L2sqrR (x : List ℝ) : ℝ :=
  (x.map (fun a => a * a)).sum

/-- One row of `fvec_renorm_L2` (distances.cpp:108-118): if `nr > 0`,
multiply every entry by `inv_nr = 1.0 / sqrtf(nr)`; otherwise the row
is left untouched. -/
noncomputable def renormRow (xi : List ℝ) : List ℝ :=
  if 0 < fvec_norm_L2sqrR xi then
    xi.map (fun a => a * (Real.sqrt (fvec_norm_L2sqrR xi))⁻¹)
  else xi

/-- `fvec_renorm_L2` (distances.cpp:105-120): renormalize each row
in place. -/
noncomputable def fvec_renorm_L2 (X : List (List ℝ)) : List (List ℝ) :=
  X.map renormRow

theorem fvec_norm_L2sqrR_nonneg (x : List ℝ) : 0 ≤ fvec_norm_L2sqrR x := by
  unfold fvec_norm_L2sqrR
  induction x with
  | nil => simp
  | cons a t ih =>
      simp only [List.map_cons, List.sum_cons]
      have : 0 ≤ a * a := mul_self_nonneg a
      linarith

theorem fvec_norm_L2sqrR_smul (x : List ℝ) (c : ℝ) :
    fvec_norm_L2sqrR (x.map (fun a => a * c)) = fvec_norm_L2sqrR x * (c * c) := by
  unfold fvec_norm_L2sqrR
  induction x with
  | nil => simp
  | cons a t ih =>
      simp only [List.map_cons, List.sum_cons, ih]
      ring

/-- After one application, a positive-norm row has squared norm `1`. -/
theorem norm_renormRow_pos {xi : List ℝ} (h : 0 < fvec_norm_L2sqrR xi) :
    fvec_norm_L2sqrR (renormRow xi) = 1 := by
  rw [renormRow, if_pos h, fvec_norm_L2sqrR_smul]
  rw [← mul_inv]
  rw [Real.mul_self_sqrt (le_of_lt h)]
  exact mul_inv_cancel₀ (ne_of_gt h)

theorem renormRow_idem (xi : List ℝ) : renormRow (renormRow xi) = renormRow xi := by
  by_cases h : 0 < fvec_norm_L2sqrR xi
  · have h1 := norm_renormRow_pos h
    rw [renormRow, h1, if_pos one_pos, Real.sqrt_one, inv_one]
    simp
  · have hx : renormRow xi = xi := by rw [renormRow, if_neg h]
    rw [hx, hx]

/-! ## Per-query output specification, at the level of the drivers -/

/-- The direct-path output for one query, for a candidate stream built
from the database rows in index order: `k` slots, sorted in the
polarity order, distinct ids that name database rows with the matching
distance, and no skipped row beats a kept slot. -/
theorem seqQuery_spec {α : Type} [LinearOrder α] [OrderTop α]
    (v : List ℚ → α) (Y : List (List ℚ)) (k : Nat)
    (hk : k ≤ Y.length) (hv : ∀ yj, v yj < ⊤) :
    ∀ out, out = HTree.singleQueryTopk k
        (Y.enum.map (fun p => (v p.2, (p.1 : Int)))) →
      out.length = k ∧
      List.Sorted (fun a b => a.1 ≤ b.1) out ∧
      (out.map Prod.snd).Nodup ∧
      (∀ e ∈ out, ∃ j : Nat, j < Y.length ∧ e.2 = (j : Int) ∧
        e.1 = v (Y.getD j [])) ∧
      (∀ j : Nat, j < Y.length → ((j : Int)) ∉ out.map Prod.snd →
        ∀ e ∈ out, e.1 ≤ v (Y.getD j [])) := by
  intro out hout
  set cs := Y.enum.map (fun p => (v p.2, (p.1 : Int))) with hcs
  have hvals : ∀ c ∈ cs, c.1 < (⊤ : α) := by
    intro c hc
    rcases List.mem_map.mp hc with ⟨p, hp, he⟩
    rw [← he]
    exact hv p.2
  have hlen : k ≤ cs.length := by
    rw [hcs, List.length_map, List.enum_length]
    exact hk
  have hids : (cs.map Prod.snd).Nodup := by
    rw [hcs, List.map_map]
    have hrw : (Y.enum.map (Prod.snd ∘ fun p => (v p.2, (p.1 : Int)))) =
        (Y.enum.map Prod.fst).map (fun n : Nat => (n : Int)) := by
      rw [List.map_map]; rfl
    rw [hrw, List.enum_map_fst]
    exact (List.nodup_range _).map (fun a b h => by exact_mod_cast h)
  obtain ⟨h1, h2, h3, h4, h5⟩ := HTree.singleQueryTopk_spec k cs hvals hlen hids
  subst hout
  refine ⟨h1, h2, h4, ?_, ?_⟩
  · intro e he
    rcases List.mem_map.mp (h3 e he) with ⟨p, hp, he'⟩
    have hget : Y[p.1]? = some p.2 := List.mem_enum_iff_getElem?.mp hp
    rcases List.getElem?_eq_some.mp hget with ⟨hlt, heq⟩
    have hgetD : Y.getD p.1 [] = p.2 := by
      rw [List.getD_eq_getElem?_getD, hget]
      rfl
    exact ⟨p.1, hlt, by rw [← he'], by rw [← he', hgetD]⟩
  · intro j hj hnot e he
    have hmem : ((v (Y.getD j []), (j : Int))) ∈ cs := by
      rw [hcs]
      apply List.mem_map.mpr
      refine ⟨(j, Y.getD j []), ?_, rfl⟩
      rw [List.mem_enum_iff_getElem?]
      show Y[j]? = some (Y.getD j [])
      rw [List.getD_eq_getElem?_getD, List.getElem?_eq_getElem hj]
      rfl
    exact h5 _ hmem (by simpa using hnot) e he

theorem map_append_getD {γ : Type} (X : List (List ℚ)) (f : List ℚ → List γ)
    (rest : List (List γ)) (i : Nat) (hi : i < X.length) :
    (X.map f ++ rest).getD i [] = f (X.getD i []) := by
  rw [List.getD_eq_getElem?_getD,
    List.getElem?_append_left (by rw [List.length_map]; exact hi),
    List.getElem?_map, List.getElem?_eq_getElem hi]
  rw [List.getD_eq_getElem?_getD, List.getElem?_eq_getElem hi]
  rfl

theorem getD_nil_of_rows {γ : Type} (init : List (List γ)) (i : Nat)
    (h0 : ∀ row ∈ init, row.length = 0) : init.getD i [] = [] := by
  rw [List.getD_eq_getElem?_getD]
  cases hx : init[i]? with
  | none => rfl
  | some row =>
      have hmem : row ∈ init := by
        rcases List.getElem?_eq_some.mp hx with ⟨hlt, heq⟩
        exact heq ▸ List.getElem_mem hlt
      have := h0 row hmem
      rw [List.eq_nil_of_length_eq_zero this]
      rfl

/-- Per-query specification of `knn_L2sqr` on its caller-visible
buffer. -/
theorem knn_L2sqr_query_spec {d : Nat} (X Y : List (List ℚ)) (k : Nat)
    (initL2 : List (List (CMaxV × Int))) (y_norm2 : Option (List ℚ))
    (hX : ∀ row ∈ X, row.length = d) (hY : ∀ row ∈ Y, row.length = d)
    (hk : k ≤ Y.length)
    (hIL : ∀ row ∈ initL2, row.length = k)
    (hyn : y_norm2 = none ∨ y_norm2 = some (fvec_norms_L2sqr Y)) :
    ∀ i, i < X.length → ∀ out,
      out = (knn_L2sqr initL2 X Y k y_norm2).getD i [] →
      out.length = k ∧
      List.Sorted (fun a b => a.1 ≤ b.1) out ∧
      (out.map Prod.snd).Nodup ∧
      (∀ e ∈ out, ∃ j : Nat, j < Y.length ∧ e.2 = (j : Int) ∧
        e.1 = toCMax (fvec_L2sqr (X.getD i []) (Y.getD j []))) ∧
      (∀ j : Nat, j < Y.length → ((j : Int)) ∉ out.map Prod.snd →
        ∀ e ∈ out, e.1 ≤ toCMax (fvec_L2sqr (X.getD i []) (Y.getD j []))) := by
  intro i hi out hout
  by_cases hy : Y.length = 0
  · -- ny = 0 forces k = 0; either path leaves the slot empty
    have hk0 : k = 0 := by omega
    subst hk0
    by_cases hb : X.length < distance_compute_blas_threshold
    · rw [knn_L2sqr, if_pos hb, exhaustive_L2sqr_seq,
        map_append_getD X _ _ i hi] at hout
      have hnil : HTree.singleQueryTopk (α := CMaxV) 0
          (l2Candidates (X.getD i []) Y) = [] := by
        rw [HTree.singleQueryTopk,
          show HTree.heapifyTree (⊤ : CMaxV) 0 = HTree.leaf from rfl,
          HTree.topkFold_leaf]
        rfl
      rw [hnil] at hout
      subst hout
      simp
    · rw [knn_L2sqr, if_neg hb, exhaustive_L2sqr_blas,
        if_pos (Or.inr hy)] at hout
      rw [getD_nil_of_rows initL2 i hIL] at hout
      subst hout
      simp
  · have hred : knn_L2sqr initL2 X Y k y_norm2 =
        exhaustive_L2sqr_seq initL2 X Y k := by
      rw [knn_L2sqr]
      split
      · rfl
      · exact exhaustive_L2sqr_blas_eq_seq initL2 X Y k y_norm2 hX hY
          (Or.inl (Nat.pos_of_ne_zero hy)) hyn
    rw [hred, exhaustive_L2sqr_seq, map_append_getD X _ _ i hi] at hout
    exact seqQuery_spec (fun yj => toCMax (fvec_L2sqr (X.getD i []) yj)) Y k hk
      (fun yj => toCMax_lt_top _) out (by rw [hout, l2Candidates])

/-- Per-query specification of `knn_inner_product` on its
caller-visible buffer; in the `CMin` order, `a ≤ b` means the
similarity of `a` is at least that of `b`, so the slots are descending
and every kept similarity is at least every skipped one. -/
theorem knn_inner_product_query_spec (X Y : List (List ℚ)) (k : Nat)
    (initIP : List (List (CMinV × Int)))
    (hk : k ≤ Y.length)
    (hII : ∀ row ∈ initIP, row.length = k) :
    ∀ i, i < X.length → ∀ out,
      out = (knn_inner_product initIP X Y k).getD i [] →
      out.length = k ∧
      List.Sorted (fun a b => OrderDual.ofDual b.1 ≤ OrderDual.ofDual a.1) out ∧
      (out.map Prod.snd).Nodup ∧
      (∀ e ∈ out, ∃ j : Nat, j < Y.length ∧ e.2 = (j : Int) ∧
        e.1 = toCMin (fvec_inner_product (X.getD i []) (Y.getD j []))) ∧
      (∀ j : Nat, j < Y.length → ((j : Int)) ∉ out.map Prod.snd →
        ∀ e ∈ out,
          OrderDual.ofDual (toCMin (fvec_inner_product (X.getD i []) (Y.getD j []))) ≤
            OrderDual.ofDual e.1) := by
  intro i hi out hout
  by_cases hy : Y.length = 0
  · have hk0 : k = 0 := by omega
    subst hk0
    by_cases hb : X.length < distance_compute_blas_threshold
    · rw [knn_inner_product, if_pos hb, exhaustive_inner_product_seq,
        map_append_getD X _ _ i hi] at hout
      have hnil : HTree.singleQueryTopk (α := CMinV) 0
          (ipCandidates (X.getD i []) Y) = [] := by
        rw [HTree.singleQueryTopk,
          show HTree.heapifyTree (⊤ : CMinV) 0 = HTree.leaf from rfl,
          HTree.topkFold_leaf]
        rfl
      rw [hnil] at hout
      subst hout
      simp
    · rw [knn_inner_product, if_neg hb, exhaustive_inner_product_blas,
        if_pos (Or.inr hy)] at hout
      rw [getD_nil_of_rows initIP i hII] at hout
      subst hout
      simp
  · have hred : knn_inner_product initIP X Y k =
        exhaustive_inner_product_seq initIP X Y k := by
      rw [knn_inner_product]
      split
      · rfl
      · exact exhaustive_inner_product_blas_eq_seq initIP X Y k
          (Or.inl (Nat.pos_of_ne_zero hy))
    rw [hred, exhaustive_inner_product_seq, map_append_getD X _ _ i hi] at hout
    exact seqQuery_spec (fun yj => toCMin (fvec_inner_product (X.getD i []) yj))
      Y k hk (fun yj => toCMin_lt_top _) out (by rw [hout, ipCandidates])

theorem rangeSeqM_rows_nil {α : Type} [LinearOrder α] (radius : α)
    (rows : List (List (α × Int))) (h : ∀ row ∈ rows, row = []) :
    rangeSeqM radius rows = 0 := by
  apply List.sum_eq_zero
  intro x hx
  rcases List.mem_map.mp hx with ⟨p, hp, he⟩
  have hmem2 : p.2 ∈ rows := by
    have := List.mem_map_of_mem Prod.snd hp
    rwa [List.enum_map_snd] at this
  rw [← he]
  simp only [taggedFilter]
  rw [h p.2 hmem2]
  rfl

/-- One query's filtered `CMax` candidate row, written as the
mathematical set of database indices whose L2² distance is strictly
below the radius. -/
theorem taggedFilter_candidates_l2 (radius : ℚ) (i : Nat) (xi : List ℚ)
    (Y : List (List ℚ)) :
    taggedFilter (toCMax radius) (i, l2Candidates xi Y) =
      (((Y.enum.filter (fun q => fvec_L2sqr xi q.2 < radius)).map
        (fun q => (i, toCMax (fvec_L2sqr xi q.2), (q.1 : Int)))) :
          List (Nat × CMaxV × Int)) := by
  simp only [taggedFilter, l2Candidates]
  rw [List.filter_map, List.map_map]
  have hf : List.filter ((fun c : CMaxV × Int => decide (c.1 < toCMax radius)) ∘
      fun p : Nat × List ℚ => (toCMax (fvec_L2sqr xi p.2), (p.1 : Int))) Y.enum =
    List.filter (fun q => decide (fvec_L2sqr xi q.2 < radius)) Y.enum := by
    apply List.filter_congr
    intro q _
    simp only [Function.comp]
    exact decide_eq_decide.mpr WithTop.coe_lt_coe
  rw [hf]
  rfl

/-- One query's filtered `CMin` candidate row: the database indices
whose inner product is strictly above the radius. -/
theorem taggedFilter_candidates_ip (radius : ℚ) (i : Nat) (xi : List ℚ)
    (Y : List (List ℚ)) :
    taggedFilter (toCMin radius) (i, ipCandidates xi Y) =
      (((Y.enum.filter (fun q => radius < fvec_inner_product xi q.2)).map
        (fun q => (i, toCMin (fvec_inner_product xi q.2), (q.1 : Int)))) :
          List (Nat × CMinV × Int)) := by
  simp only [taggedFilter, ipCandidates]
  rw [List.filter_map, List.map_map]
  have hf : List.filter ((fun c : CMinV × Int => decide (c.1 < toCMin radius)) ∘
      fun p : Nat × List ℚ => (toCMin (fvec_inner_product xi p.2), (p.1 : Int))) Y.enum =
    List.filter (fun q => decide (radius < fvec_inner_product xi q.2)) Y.enum := by
    apply List.filter_congr
    intro q _
    simp only [Function.comp]
    exact decide_eq_decide.mpr WithBot.coe_lt_coe
  rw [hf]
  rfl

/-- The direct-path range search returns, per query, exactly the pairs
passing the strict radius test. -/
theorem range_seq_l2_spec (res : Multiset (Nat × CMaxV × Int))
    (X Y : List (List ℚ)) (radius : ℚ) :
    exhaustive_L2sqr_seq_range res X Y (toCMax radius) =
      res + (X.enum.map (fun p =>
        (((Y.enum.filter (fun q => fvec_L2sqr p.2 q.2 < radius)).map
          (fun q => (p.1, toCMax (fvec_L2sqr p.2 q.2), (q.1 : Int))) :
            List (Nat × CMaxV × Int)) : Multiset (Nat × CMaxV × Int)))).sum := by
  rw [exhaustive_L2sqr_seq_range, rangeSeqM]
  congr 1
  rw [List.enum_map, List.map_map]
  congr 1
  apply List.map_congr_left
  intro p hp
  exact taggedFilter_candidates_l2 radius p.1 p.2 Y

theorem range_seq_ip_spec (res : Multiset (Nat × CMinV × Int))
    (X Y : List (List ℚ)) (radius : ℚ) :
    exhaustive_inner_product_seq_range res X Y (toCMin radius) =
      res + (X.enum.map (fun p =>
        (((Y.enum.filter (fun q => radius < fvec_inner_product p.2 q.2)).map
          (fun q => (p.1, toCMin (fvec_inner_product p.2 q.2), (q.1 : Int))) :
            List (Nat × CMinV × Int)) : Multiset (Nat × CMinV × Int)))).sum := by
  rw [exhaustive_inner_product_seq_range, rangeSeqM]
  congr 1
  rw [List.enum_map, List.map_map]
  congr 1
  apply List.map_congr_left
  intro p hp
  exact taggedFilter_candidates_ip radius p.1 p.2 Y

/-- The GEMM tile rows of the L2² path, rewritten to the plain
candidate rows (shared by the heap and range instantiations). -/
theorem l2BlasRows_eq {d : Nat} (X Y : List (List ℚ))
    (y_norms : Option (List ℚ))
    (hX : ∀ row ∈ X, row.length = d) (hY : ∀ row ∈ Y, row.length = d)
    (hyn : y_norms = none ∨ y_norms = some (fvec_norms_L2sqr Y)) :
    X.enum.map (fun p => l2BlasCandidates ((fvec_norms_L2sqr X).getD p.1 0)
      (y_norms.getD (fvec_norms_L2sqr Y)) p.2 Y) =
    X.map (fun xi => l2Candidates xi Y) := by
  have hynorm : y_norms.getD (fvec_norms_L2sqr Y) = fvec_norms_L2sqr Y := by
    rcases hyn with h | h <;> rw [h] <;> rfl
  have hmap : ∀ p ∈ X.enum,
      l2BlasCandidates ((fvec_norms_L2sqr X).getD p.1 0)
        (y_norms.getD (fvec_norms_L2sqr Y)) p.2 Y = l2Candidates p.2 Y := by
    intro p hp
    have hget : X[p.1]? = some p.2 := List.mem_enum_iff_getElem?.mp hp
    have hmem : p.2 ∈ X := by
      rcases List.getElem?_eq_some.mp hget with ⟨hlt, heq⟩
      exact heq ▸ List.getElem_mem hlt
    have hxnorm : (fvec_norms_L2sqr X).getD p.1 0 = fvec_norm_L2sqr p.2 := by
      rw [fvec_norms_L2sqr, List.getD_eq_getElem?_getD, List.getElem?_map, hget]
      rfl
    rw [hxnorm, hynorm, l2BlasCandidates_eq (hX p.2 hmem) hY]
  rw [List.map_congr_left hmap]
  have hcomp : X.map (fun xi => l2Candidates xi Y) =
      X.enum.map (fun p => l2Candidates p.2 Y) := by
    conv_lhs => rw [← List.enum_map_snd X]
    rw [List.map_map]
    rfl
  rw [hcomp]

/-- GEMM path = direct path for L2² range search, on all inputs. -/
theorem exhaustive_L2sqr_blas_range_eq_seq {d : Nat}
    (res : Multiset (Nat × CMaxV × Int)) (X Y : List (List ℚ))
    (radius : CMaxV) (y_norms : Option (List ℚ))
    (hX : ∀ row ∈ X, row.length = d) (hY : ∀ row ∈ Y, row.length = d)
    (hyn : y_norms = none ∨ y_norms = some (fvec_norms_L2sqr Y)) :
    exhaustive_L2sqr_blas_range res X Y radius y_norms =
      exhaustive_L2sqr_seq_range res X Y radius := by
  by_cases h0 : X.length = 0 ∨ Y.length = 0
  · rw [exhaustive_L2sqr_blas_range, if_pos h0, exhaustive_L2sqr_seq_range]
    rcases h0 with h | h
    · rw [List.eq_nil_of_length_eq_zero h]
      rw [show rangeSeqM radius (([] : List (List ℚ)).map
        (fun xi => l2Candidates xi Y)) = 0 from rfl]
      rw [add_zero]
    · rw [List.eq_nil_of_length_eq_zero h,
        rangeSeqM_rows_nil radius _ (by
          intro row hrow
          rcases List.mem_map.mp hrow with ⟨xi, _, he⟩
          rw [← he]
          rfl), add_zero]
  · push_neg at h0
    rw [exhaustive_L2sqr_blas_range, if_neg (by push_neg; exact h0)]
    dsimp only
    rw [exhaustive_L2sqr_seq_range]
    congr 1
    have hlenrows : ∀ r ∈ X.enum.map (fun p =>
        l2BlasCandidates ((fvec_norms_L2sqr X).getD p.1 0)
          ((y_norms.getD (fvec_norms_L2sqr Y))) p.2 Y), r.length = Y.length := by
      intro r hr
      rcases List.mem_map.mp hr with ⟨p, _, he⟩
      rw [← he, l2BlasCandidates, List.length_map, List.enum_length]
    rw [merged_rangeBlasCore radius _ _ query_bs_pos database_bs_pos _ hlenrows,
      l2BlasRows_eq X Y y_norms hX hY hyn]

/-- GEMM path = direct path for inner-product range search, on all
inputs. -/
theorem exhaustive_inner_product_blas_range_eq_seq
    (res : Multiset (Nat × CMinV × Int)) (X Y : List (List ℚ))
    (radius : CMinV) :
    exhaustive_inner_product_blas_range res X Y radius =
      exhaustive_inner_product_seq_range res X Y radius := by
  by_cases h0 : X.length = 0 ∨ Y.length = 0
  · rw [exhaustive_inner_product_blas_range, if_pos h0,
      exhaustive_inner_product_seq_range]
    rcases h0 with h | h
    · rw [List.eq_nil_of_length_eq_zero h]
      rw [show rangeSeqM radius (([] : List (List ℚ)).map
        (fun xi => ipCandidates xi Y)) = 0 from rfl]
      rw [add_zero]
    · rw [List.eq_nil_of_length_eq_zero h,
        rangeSeqM_rows_nil radius _ (by
          intro row hrow
          rcases List.mem_map.mp hrow with ⟨xi, _, he⟩
          rw [← he]
          rfl), add_zero]
  · push_neg at h0
    rw [exhaustive_inner_product_blas_range, if_neg (by push_neg; exact h0),
      exhaustive_inner_product_seq_range]
    congr 1
    have hlenrows : ∀ r ∈ X.map (fun xi => ipCandidates xi Y),
        r.length = Y.length := by
      intro r hr
      rcases List.mem_map.mp hr with ⟨xi, _, he⟩
      rw [← he, ipCandidates, List.length_map, List.enum_length]
    rw [merged_rangeBlasCore radius _ _ query_bs_pos database_bs_pos _ hlenrows]

/-! ## Helpers for the by-idx kernels -/

/-- `getD` through `map`, inside bounds (any defaults). -/
theorem getD_map_of_lt {α β : Type} (f : α → β) :
    ∀ (l : List α) (j : Nat) (da : α) (db : β), j < l.length →
      (l.map f).getD j db = f (l.getD j da)
  | [], j, _, _, hj => absurd hj (Nat.not_lt_zero j)
  | a :: t, 0, _, _, _ => rfl
  | a :: t, j + 1, da, db, hj =>
      getD_map_of_lt f t j da db (Nat.lt_of_succ_lt_succ hj)

/-- `getD` through `zip`, inside bounds (any defaults). -/
theorem getD_zip {α β : Type} :
    ∀ (a : List α) (b : List β) (j : Nat) (da : α) (db : β),
      j < a.length → j < b.length →
      (List.zip a b).getD j (da, db) = (a.getD j da, b.getD j db)
  | [], _, j, _, _, hj, _ => absurd hj (Nat.not_lt_zero j)
  | _ :: _, [], j, _, _, _, hj => absurd hj (Nat.not_lt_zero j)
  | _ :: _, _ :: _, 0, _, _, _, _ => rfl
  | x :: xs, y :: ys, j + 1, da, db, hja, hjb =>
      getD_zip xs ys j da db (Nat.lt_of_succ_lt_succ hja)
        (Nat.lt_of_succ_lt_succ hjb)

/-- `mapM` over `Option` when every element succeeds. -/
theorem mapM_eq_map_of_some {α β : Type} (f : α → Option β) (g : α → β) :
    ∀ l : List α, (∀ a ∈ l, f a = some (g a)) → l.mapM f = some (l.map g) := by
  intro l
  induction l with
  | nil => intro _; rfl
  | cons a t ih =>
      intro h
      rw [List.mapM_cons, h a (List.mem_cons_self a t),
        ih (fun b hb => h b (List.mem_cons_of_mem a hb))]
      rfl

/-- `mapM` over `Option` fails as soon as one element fails. -/
theorem mapM_eq_none_of_mem {α β : Type} (f : α → Option β) :
    ∀ l : List α, (∃ a ∈ l, f a = none) → l.mapM f = none := by
  intro l
  induction l with
  | nil => rintro ⟨a, ha, _⟩; cases ha
  | cons a t ih =>
      rintro ⟨b, hb, hnone⟩
      rw [List.mapM_cons]
      rcases List.mem_cons.mp hb with rfl | hmem
      · rw [hnone]; rfl
      · cases hfa : f a with
        | none => rfl
        | some v => rw [ih ⟨b, hmem, hnone⟩]; rfl

/-- Every element of a successful `mapM` output comes from some input
element. -/
theorem mem_of_mapM_some {α β : Type} (f : α → Option β) :
    ∀ (l : List α) (out : List β), l.mapM f = some out →
      ∀ b ∈ out, ∃ a ∈ l, f a = some b := by
  intro l
  induction l with
  | nil =>
      intro out h b hb
      rw [show ([] : List α).mapM f = some [] from rfl] at h
      cases h
      cases hb
  | cons a t ih =>
      intro out h b hb
      rw [List.mapM_cons] at h
      cases hfa : f a with
      | none => rw [hfa] at h; cases h
      | some v =>
          rw [hfa] at h
          cases hmt : t.mapM f with
          | none => rw [hmt] at h; cases h
          | some vs =>
              rw [hmt] at h
              have hout : out = v :: vs := by
                have : some (v :: vs) = some out := h
                exact (Option.some.inj this).symm
              subst hout
              rcases List.mem_cons.mp hb with rfl | hmem
              · exact ⟨a, List.mem_cons_self a t, hfa⟩
              · rcases ih vs hmt b hmem with ⟨c, hc, hfc⟩
                exact ⟨c, List.mem_cons_of_mem a hc, hfc⟩

/-- The reordered output has as many slots as the heap has entries. -/
theorem HTree.length_reorder {α : Type} [LinearOrder α] [OrderTop α] (t : HTree α) :
    (HTree.reorder t).length = t.entries.card := by
  have h := congrArg Multiset.card (HTree.reorder_perm t)
  simpa using h

/-- `knn_ip_by_idx_query` never changes the number of heap entries. -/
theorem card_knn_ip_query (x_ : List ℚ) (y : List (List ℚ)) (k : Nat) :
    ∀ (l : List Int) (t t_ : HTree CMinV),
      knn_ip_by_idx_query x_ y k l t = some t_ →
      t_.entries.card = t.entries.card
  | [], t, t_, h => by
      rw [knn_ip_by_idx_query] at h
      rw [← Option.some.inj h]
  | id :: rest, t, t_, h => by
      rw [knn_ip_by_idx_query] at h
      by_cases hid : id < 0
      · rw [if_pos hid] at h
        rw [← Option.some.inj h]
      · rw [if_neg hid] at h
        cases hyr : yRowChecked y id with
        | none => rw [hyr] at h; cases h
        | some yr =>
            rw [hyr] at h
            rw [card_knn_ip_query x_ y k rest _ t_ h, HTree.card_addResult]

/-- With every id of the row in range, the unguarded L2² scan succeeds
and folds `add_result` over the whole row. -/
theorem knn_l2_query_all_in_range (x_ : List ℚ) (y : List (List ℚ)) (k : Nat) :
    ∀ (l : List Int) (t : HTree CMaxV),
      (∀ id ∈ l, 0 ≤ id ∧ id.toNat < y.length) →
      knn_l2_by_idx_query x_ y k l t =
        some (l.foldl (fun t id =>
          t.addResult (toCMax (fvec_L2sqr x_ (y.getD id.toNat []))) id) t)
  | [], t, _ => rfl
  | id :: rest, t, h => by
      rw [knn_l2_by_idx_query, yRowChecked,
        if_pos (h id (List.mem_cons_self id rest))]
      exact knn_l2_query_all_in_range x_ y k rest _
        (fun i hi => h i (List.mem_cons_of_mem id hi))

/-- A negative id anywhere in the row makes the unguarded L2² scan
dereference outside `y` (modelled as `none`). -/
theorem knn_l2_query_bad_id (x_ : List ℚ) (y : List (List ℚ)) (k : Nat) :
    ∀ (l : List Int) (t : HTree CMaxV), (∃ id ∈ l, id < 0) →
      knn_l2_by_idx_query x_ y k l t = none
  | [], _, h => by rcases h with ⟨w, hw, _⟩; cases hw
  | id :: rest, t, h => by
      rcases h with ⟨w, hw, hneg⟩
      rw [knn_l2_by_idx_query, yRowChecked]
      by_cases hr : 0 ≤ id ∧ id.toNat < y.length
      · rw [if_pos hr]
        apply knn_l2_query_bad_id x_ y k rest
        rcases List.mem_cons.mp hw with rfl | hmem
        · exact absurd hr.1 (not_le.mpr hneg)
        · exact ⟨w, hmem, hneg⟩
      · rw [if_neg hr]

/-- The IP scan stops at the first negative id: everything after it is
never considered, whatever it is. -/
theorem knn_ip_query_break (x_ : List ℚ) (y : List (List ℚ)) (k : Nat)
    (id : Int) (hneg : id < 0) :
    ∀ (a b : List Int) (t : HTree CMinV),
      knn_ip_by_idx_query x_ y k (a ++ id :: b) t =
        knn_ip_by_idx_query x_ y k a t
  | [], b, t => by
      rw [List.nil_append]
      simp only [knn_ip_by_idx_query]
      rw [if_pos hneg]
  | c :: a, b, t => by
      rw [List.cons_append, knn_ip_by_idx_query]
      conv_rhs => rw [knn_ip_by_idx_query]
      by_cases hc : c < 0
      · rw [if_pos hc, if_pos hc]
      · rw [if_neg hc, if_neg hc]
        cases yRowChecked y c with
        | none => rfl
        | some yr => exact knn_ip_query_break x_ y k id hneg a b _

/-! ## Claim theorems -/

/-- C2: for `ny ≥ k` and every query `i`, `knn_L2sqr` returns exactly
an argmin-k of the L2² distance row — `k` slots holding pairwise
distinct database ids with their true distances, values sorted
ascending, and every kept distance at most every non-kept one — and
`knn_inner_product` symmetrically returns an argmax-k with the `k`
similarities sorted descending (the `CMin` order is the dual of the
similarity order, so `OrderDual.ofDual` reads the actual similarity).
The buffers are well-formed `k`-slot heap arrays. -/
theorem claim_C2_topk_correctness {d : Nat} (X Y : List (List ℚ)) (k : Nat)
    (initIP : List (List (CMinV × Int))) (initL2 : List (List (CMaxV × Int)))
    (y_norm2 : Option (List ℚ))
    (hX : ∀ row ∈ X, row.length = d) (hY : ∀ row ∈ Y, row.length = d)
    (hk : k ≤ Y.length)
    (hIL : ∀ row ∈ initL2, row.length = k)
    (hII : ∀ row ∈ initIP, row.length = k)
    (hyn : y_norm2 = none ∨ y_norm2 = some (fvec_norms_L2sqr Y)) :
    (∀ i, i < X.length → ∀ out,
      out = (knn_L2sqr initL2 X Y k y_norm2).getD i [] →
      out.length = k ∧
      List.Sorted (fun a b => a.1 ≤ b.1) out ∧
      (out.map Prod.snd).Nodup ∧
      (∀ e ∈ out, ∃ j : Nat, j < Y.length ∧ e.2 = (j : Int) ∧
        e.1 = toCMax (fvec_L2sqr (X.getD i []) (Y.getD j []))) ∧
      (∀ j : Nat, j < Y.length → ((j : Int)) ∉ out.map Prod.snd →
        ∀ e ∈ out, e.1 ≤ toCMax (fvec_L2sqr (X.getD i []) (Y.getD j [])))) ∧
    (∀ i, i < X.length → ∀ out,
      out = (knn_inner_product initIP X Y k).getD i [] →
      out.length = k ∧
      List.Sorted (fun a b => OrderDual.ofDual b.1 ≤ OrderDual.ofDual a.1) out ∧
      (out.map Prod.snd).Nodup ∧
      (∀ e ∈ out, ∃ j : Nat, j < Y.length ∧ e.2 = (j : Int) ∧
        e.1 = toCMin (fvec_inner_product (X.getD i []) (Y.getD j []))) ∧
      (∀ j : Nat, j < Y.length → ((j : Int)) ∉ out.map Prod.snd →
        ∀ e ∈ out,
          OrderDual.ofDual (toCMin (fvec_inner_product (X.getD i []) (Y.getD j []))) ≤
            OrderDual.ofDual e.1)) :=
  ⟨knn_L2sqr_query_spec X Y k initL2 y_norm2 hX hY hk hIL hyn,
   knn_inner_product_query_spec X Y k initIP hk hII⟩

/-- C2 witness: the concrete instance `X = [[0]]`, `Y = [[1],[2]]`,
`k = 1`. -/
theorem claim_C2_topk_correctness_witness :
    ((knn_L2sqr [] [[(0 : ℚ)]] [[1], [2]] 1 none).getD 0 []).length = 1 ∧
    (∀ e ∈ (knn_L2sqr [] [[(0 : ℚ)]] [[1], [2]] 1 none).getD 0 [],
      ∃ j : Nat, j < 2 ∧ e.2 = (j : Int) ∧
        e.1 = toCMax (fvec_L2sqr ([[(0 : ℚ)]].getD 0 []) ([[(1 : ℚ)], [2]].getD j []))) := by
  have h := (claim_C2_topk_correctness (d := 1) [[(0 : ℚ)]] [[1], [2]] 1 [] [] none
    (by intro row hrow; rw [List.mem_singleton.mp hrow]; rfl)
    (by intro row hrow; fin_cases hrow <;> rfl)
    (by norm_num) (by intro row hrow; cases hrow) (by intro row hrow; cases hrow)
    (Or.inl rfl)).1 0 (by norm_num)
    ((knn_L2sqr [] [[(0 : ℚ)]] [[1], [2]] 1 none).getD 0 []) rfl
  exact ⟨h.1, h.2.2.2.1⟩

/-- C1: for every query batch `X`, database `Y`, dimension `d` and heap
size `k`, the direct path (`exhaustive_*_seq`) and the GEMM path
(`exhaustive_*_blas`) produce identical per-query top-k ids and (in
exact arithmetic) identical distances — amended with the proviso
`ny ≥ 1` (or no queries): when `ny = 0` the GEMM path returns without
touching the caller's buffers while the direct path overwrites them
with sentinels.  Within that proviso both entire outputs (values and
ids) coincide, which is stronger than the claim (no distinctness
assumption is needed in exact arithmetic). -/
theorem claim_C1_strategy_equivalence {d : Nat} (X Y : List (List ℚ)) (k : Nat)
    (initIP : List (List (CMinV × Int))) (initL2 : List (List (CMaxV × Int)))
    (y_norms : Option (List ℚ))
    (hX : ∀ row ∈ X, row.length = d) (hY : ∀ row ∈ Y, row.length = d)
    (hny : 0 < Y.length ∨ X = [])
    (hyn : y_norms = none ∨ y_norms = some (fvec_norms_L2sqr Y)) :
    exhaustive_inner_product_blas initIP X Y k =
        exhaustive_inner_product_seq initIP X Y k ∧
      exhaustive_L2sqr_blas initL2 X Y k y_norms =
        exhaustive_L2sqr_seq initL2 X Y k :=
  ⟨exhaustive_inner_product_blas_eq_seq initIP X Y k hny,
   exhaustive_L2sqr_blas_eq_seq initL2 X Y k y_norms hX hY hny hyn⟩

/-- C1 witness: a concrete instance (`d = 1`, one query, one database
row) where both paths agree. -/
theorem claim_C1_strategy_equivalence_witness :
    exhaustive_inner_product_blas [] [[1]] [[2]] 1 =
        exhaustive_inner_product_seq [] [[1]] [[2]] 1 ∧
      exhaustive_L2sqr_blas [] [[1]] [[2]] 1 none =
        exhaustive_L2sqr_seq [] [[1]] [[2]] 1 :=
  claim_C1_strategy_equivalence (d := 1) [[1]] [[2]] 1 [] [] none
    (by intro row hrow; rw [List.mem_singleton.mp hrow]; rfl)
    (by intro row hrow; rw [List.mem_singleton.mp hrow]; rfl)
    (Or.inl (by simp)) (Or.inl rfl)

/-- C1 counterexample: with `nx = 1`, `ny = 0` the claim as stated
fails — every distance row is empty (so "pairwise distinct" holds
vacuously), yet the GEMM path leaves the caller's id slot at `7` while
the direct path writes the sentinel id `-1`. -/
theorem claim_C1_counterexample :
    exhaustive_L2sqr_blas [[(((5 : ℚ) : CMaxV), (7 : Int))]] [[0]] [] 1 none =
        [[(((5 : ℚ) : CMaxV), 7)]] ∧
      exhaustive_L2sqr_seq [[(((5 : ℚ) : CMaxV), (7 : Int))]] [[0]] [] 1 =
        [[((⊤ : CMaxV), -1)]] ∧
      exhaustive_L2sqr_blas [[(((5 : ℚ) : CMaxV), (7 : Int))]] [[0]] [] 1 none ≠
        exhaustive_L2sqr_seq [[(((5 : ℚ) : CMaxV), (7 : Int))]] [[0]] [] 1 := by
  have hblas : exhaustive_L2sqr_blas [[(((5 : ℚ) : CMaxV), (7 : Int))]]
      [[0]] [] 1 none = [[(((5 : ℚ) : CMaxV), 7)]] := rfl
  have hseq : exhaustive_L2sqr_seq [[(((5 : ℚ) : CMaxV), (7 : Int))]]
      [[0]] [] 1 = [[((⊤ : CMaxV), -1)]] := rfl
  refine ⟨hblas, hseq, ?_⟩
  intro h
  rw [hblas, hseq] at h
  simp at h

/-- C4: on a heap-ordered `k`-slot buffer (root slot `heap_dis[0]` is
`rv`), `add_result` admits a candidate iff it is strictly better than
the root (`C::cmp(heap_dis[0], dis)`), so ties with the root are
rejected; on admit the root pair is popped and the candidate pushed;
after every add the heap property holds, the slot count is unchanged,
and the root equals the admission threshold (it bounds every stored
value); and the fused `add_results` loop (threshold re-read from
`heap_dis[0]` after each push) admits by exactly the same rule. -/
theorem claim_C4_heap_admission {α : Type} [LinearOrder α] [OrderTop α]
    (rv : α) (ri : Int) (l r : HTree α) (d : α) (i : Int)
    (ho : (HTree.node rv ri l r).heapOrdered) :
    ((HTree.node rv ri l r).addResult d i =
      if d < rv then HTree.siftTop d i l r else HTree.node rv ri l r) ∧
    (d = rv → (HTree.node rv ri l r).addResult d i = HTree.node rv ri l r) ∧
    (d < rv → ((HTree.node rv ri l r).addResult d i).entries =
      (d, i) ::ₘ (l.entries + r.entries)) ∧
    ((HTree.node rv ri l r).addResult d i).heapOrdered ∧
    ((HTree.node rv ri l r).addResult d i).entries.card =
      (HTree.node rv ri l r).entries.card ∧
    (∀ x ∈ ((HTree.node rv ri l r).addResult d i).vals,
      x ≤ ((HTree.node rv ri l r).addResult d i).rootD d) ∧
    (∀ cs : List (α × Int),
      HTree.addResultsLoop (HTree.node rv ri l r) rv cs =
        HTree.topkFold (HTree.node rv ri l r) cs) := by
  refine ⟨rfl, ?_, ?_, HTree.heapOrdered_addResult ho d i,
    HTree.card_addResult _ d i,
    HTree.val_le_rootD (HTree.heapOrdered_addResult ho d i) d,
    fun cs => HTree.addResultsLoop_eq_topkFold cs (HTree.node rv ri l r) rv⟩
  · intro hd
    subst hd
    exact HTree.addResult_of_not_lt i (lt_irrefl d)
  · intro hd
    rw [HTree.addResult_of_lt i hd, HTree.entries_siftTop]

/-- C4 witness: a concrete 2-slot `CMax` heap `{3, 1}` offered the
candidate `2`. -/
theorem claim_C4_heap_admission_witness :
    ((HTree.node (((3 : ℚ) : CMaxV)) 0 (HTree.node 1 1 HTree.leaf HTree.leaf)
        HTree.leaf).addResult 2 5).heapOrdered ∧
    (∀ x ∈ ((HTree.node (((3 : ℚ) : CMaxV)) 0
        (HTree.node 1 1 HTree.leaf HTree.leaf) HTree.leaf).addResult 2 5).vals,
      x ≤ ((HTree.node (((3 : ℚ) : CMaxV)) 0
        (HTree.node 1 1 HTree.leaf HTree.leaf) HTree.leaf).addResult 2 5).rootD 2) :=
  ⟨(claim_C4_heap_admission (((3 : ℚ) : CMaxV)) 0
      (HTree.node 1 1 HTree.leaf HTree.leaf) HTree.leaf 2 5 (by decide)).2.2.2.1,
   (claim_C4_heap_admission (((3 : ℚ) : CMaxV)) 0
      (HTree.node 1 1 HTree.leaf HTree.leaf) HTree.leaf 2 5 (by decide)).2.2.2.2.2.1⟩

/-- C5 counterexample: `inner_product_to_L2sqr` does **not** clamp:
with `n1 = n2 = 1`, `nr1 = nr2 = [0]`, `dis = [[1]]`, the rewritten
entry is `0 + 0 − 2·1 = −2`, which stays negative instead of becoming
`0` as the claim asserts. -/
theorem claim_C5_counterexample :
    inner_product_to_L2sqr [[1]] [0] [0] = [[-2]] ∧ ((-2 : ℚ) ≠ 0) := by
  constructor
  · rw [inner_product_to_L2sqr]
    norm_num [List.enum]
  · norm_num

/-- C5 (amended): `inner_product_to_L2sqr` rewrites every in-range
entry to `nr1[j] + nr2[i] − 2·dis[j][i]` — with **no** clamping of
negative results (distances.cpp:844-849 has no `if (dis < 0)` test) —
and preserves the shape of `dis`. -/
theorem claim_C5_inner_product_to_L2sqr (dis : List (List ℚ)) (nr1 nr2 : List ℚ)
    (j i : Nat) (hj : j < dis.length) (hi : i < (dis.getD j []).length) :
    (inner_product_to_L2sqr dis nr1 nr2).length = dis.length ∧
    ((inner_product_to_L2sqr dis nr1 nr2).getD j []).length =
      (dis.getD j []).length ∧
    ((inner_product_to_L2sqr dis nr1 nr2).getD j []).getD i 0 =
      nr1.getD j 0 + nr2.getD i 0 - 2 * ((dis.getD j []).getD i 0) := by
  have hjd : dis[j]? = some (dis.getD j []) := by
    rw [List.getD_eq_getElem?_getD, List.getElem?_eq_getElem hj]
    rfl
  have hrow : (inner_product_to_L2sqr dis nr1 nr2).getD j [] =
      (dis.getD j []).enum.map
        (fun e => nr1.getD j 0 + nr2.getD e.1 0 - 2 * e.2) := by
    rw [inner_product_to_L2sqr, List.getD_eq_getElem?_getD, List.getElem?_map,
      List.getElem?_enum, hjd]
    rfl
  have hid : (dis.getD j [])[i]? = some ((dis.getD j []).getD i 0) := by
    cases hx : (dis.getD j [])[i]? with
    | none =>
        exfalso
        rw [List.getElem?_eq_none_iff] at hx
        omega
    | some a =>
        rw [List.getD_eq_getElem?_getD, hx]
        rfl
  refine ⟨by rw [inner_product_to_L2sqr]; simp, ?_, ?_⟩
  · rw [hrow]
    simp
  · rw [hrow, List.getD_eq_getElem?_getD, List.getElem?_map,
      List.getElem?_enum, hid]
    rfl

/-- C5 witness for the amended statement. -/
theorem claim_C5_inner_product_to_L2sqr_witness :
    (inner_product_to_L2sqr [[1]] [0] [0]).length = 1 ∧
    ((inner_product_to_L2sqr [[1]] [0] [0]).getD 0 []).length = 1 ∧
    ((inner_product_to_L2sqr [[1]] [0] [0]).getD 0 []).getD 0 0 =
      [(0 : ℚ)].getD 0 0 + [(0 : ℚ)].getD 0 0 - 2 * (([[(1 : ℚ)]].getD 0 []).getD 0 0) := by
  have h := claim_C5_inner_product_to_L2sqr [[1]] [0] [0] 0 0 (by norm_num)
    (by norm_num)
  exact ⟨by simpa using h.1, by simpa using h.2.1, h.2.2⟩

/-- C6 counterexample: with `nx = 1 < threshold` and `ny = 0`,
`knn_L2sqr` is not a no-op — the direct path heapifies and reorders the
query's slots, overwriting the caller's buffer `[(5, 7)]` with the
sentinel pair `(+inf, -1)`. -/
theorem claim_C6_counterexample :
    knn_L2sqr [[(((5 : ℚ) : CMaxV), (7 : Int))]] [[0]] [] 1 none =
        [[((⊤ : CMaxV), -1)]] ∧
      knn_L2sqr [[(((5 : ℚ) : CMaxV), (7 : Int))]] [[0]] [] 1 none ≠
        [[(((5 : ℚ) : CMaxV), (7 : Int))]] := by
  have h : knn_L2sqr [[(((5 : ℚ) : CMaxV), (7 : Int))]] [[0]] [] 1 none =
      [[((⊤ : CMaxV), -1)]] := rfl
  refine ⟨h, ?_⟩
  rw [h]
  simp

/-- C6 (amended): `nx = 0` is a complete no-op for all four entry
points — heap buffers and range results are returned unchanged; for
`ny = 0` the GEMM paths return immediately with the buffers unchanged
and both range searches leave the result unchanged, but the direct-path
knn kernels overwrite each query's `k` slots with the reordered
sentinel heap (values `C::neutral()`, ids `-1`). -/
theorem claim_C6_empty_inputs (X Y : List (List ℚ)) (k : Nat) (radius : ℚ)
    (initIP : List (List (CMinV × Int))) (initL2 : List (List (CMaxV × Int)))
    (y_norm2 : Option (List ℚ)) (resL2 : Multiset (Nat × CMaxV × Int))
    (resIP : Multiset (Nat × CMinV × Int)) :
    (knn_inner_product initIP [] Y k = initIP) ∧
    (knn_L2sqr initL2 [] Y k y_norm2 = initL2) ∧
    (range_search_L2sqr resL2 [] Y radius = resL2) ∧
    (range_search_inner_product resIP [] Y radius = resIP) ∧
    (X.length < distance_compute_blas_threshold →
      knn_L2sqr initL2 X [] k y_norm2 =
        X.map (fun _ => HTree.reorder (HTree.heapifyTree ⊤ k)) ++
          initL2.drop X.length ∧
      knn_inner_product initIP X [] k =
        X.map (fun _ => HTree.reorder (HTree.heapifyTree ⊤ k)) ++
          initIP.drop X.length) ∧
    (¬ X.length < distance_compute_blas_threshold →
      knn_L2sqr initL2 X [] k y_norm2 = initL2 ∧
      knn_inner_product initIP X [] k = initIP) ∧
    (range_search_L2sqr resL2 X [] radius = resL2) ∧
    (range_search_inner_product resIP X [] radius = resIP) := by
  have hseqIP : ∀ r, rangeSeqM (toCMin r) (X.map (fun xi => ipCandidates xi [])) = 0 := by
    intro r
    apply List.sum_eq_zero
    intro x hx
    rcases List.mem_map.mp hx with ⟨p, hp, he⟩
    have hmem2 : p.2 ∈ X.map (fun xi => ipCandidates xi []) := by
      have := List.mem_map_of_mem Prod.snd hp
      rwa [List.enum_map_snd] at this
    rcases List.mem_map.mp hmem2 with ⟨xi, _, he2⟩
    rw [← he]
    simp only [taggedFilter]
    rw [← he2]
    rfl
  have hseqL2 : ∀ r, rangeSeqM (toCMax r) (X.map (fun xi => l2Candidates xi [])) = 0 := by
    intro r
    apply List.sum_eq_zero
    intro x hx
    rcases List.mem_map.mp hx with ⟨p, hp, he⟩
    have hmem2 : p.2 ∈ X.map (fun xi => l2Candidates xi []) := by
      have := List.mem_map_of_mem Prod.snd hp
      rwa [List.enum_map_snd] at this
    rcases List.mem_map.mp hmem2 with ⟨xi, _, he2⟩
    rw [← he]
    simp only [taggedFilter]
    rw [← he2]
    rfl
  refine ⟨?_, ?_, ?_, ?_, ?_, ?_, ?_, ?_⟩
  · rw [knn_inner_product, if_pos (by rw [distance_compute_blas_threshold]; simp),
      exhaustive_inner_product_seq]
    simp
  · rw [knn_L2sqr, if_pos (by rw [distance_compute_blas_threshold]; simp),
      exhaustive_L2sqr_seq]
    simp
  · rw [range_search_L2sqr, if_pos (by rw [distance_compute_blas_threshold]; simp),
      exhaustive_L2sqr_seq_range, rangeSeqM]
    simp
  · rw [range_search_inner_product,
      if_pos (by rw [distance_compute_blas_threshold]; simp),
      exhaustive_inner_product_seq_range, rangeSeqM]
    simp
  · intro hb
    constructor
    · rw [knn_L2sqr, if_pos hb]
      rfl
    · rw [knn_inner_product, if_pos hb]
      rfl
  · intro hb
    constructor
    · rw [knn_L2sqr, if_neg hb, exhaustive_L2sqr_blas,
        if_pos (Or.inr List.length_nil)]
    · rw [knn_inner_product, if_neg hb, exhaustive_inner_product_blas,
        if_pos (Or.inr List.length_nil)]
  · rw [range_search_L2sqr]
    split
    · rw [exhaustive_L2sqr_seq_range, hseqL2, add_zero]
    · rw [exhaustive_L2sqr_blas_range, if_pos (Or.inr List.length_nil)]
  · rw [range_search_inner_product]
    split
    · rw [exhaustive_inner_product_seq_range, hseqIP, add_zero]
    · rw [exhaustive_inner_product_blas_range, if_pos (Or.inr List.length_nil)]

/-- C6 witness for the amended statement. -/
theorem claim_C6_empty_inputs_witness :
    knn_L2sqr [[(((5 : ℚ) : CMaxV), (7 : Int))]] [] [[1]] 2 none =
        [[(((5 : ℚ) : CMaxV), 7)]] ∧
      ((1 : Nat) < distance_compute_blas_threshold →
        knn_L2sqr [[(((5 : ℚ) : CMaxV), (7 : Int))]] [[0]] [] 2 none =
          [[0]].map (fun _ => HTree.reorder (HTree.heapifyTree ⊤ 2)) ++
            [[(((5 : ℚ) : CMaxV), (7 : Int))]].drop 1 ∧
        knn_inner_product [] [[0]] [] 2 =
          [[0]].map (fun _ => HTree.reorder (HTree.heapifyTree ⊤ 2)) ++
            ([] : List (List (CMinV × Int))).drop 1) := by
  have h := claim_C6_empty_inputs [[0]] [[1]] 2 0 []
    [[(((5 : ℚ) : CMaxV), (7 : Int))]] none 0 0
  exact ⟨h.2.1, fun hlt => (h.2.2.2.2.1 (by simpa using hlt))⟩

/-- C3 counterexample: the claimed inclusive predicate (keep
`d ≤ radius` for L2²) disagrees with the code.  With `X = [[0]]`,
`Y = [[2]]`, `radius = 4`, the single distance is `(0-2)² = 4 ≤ 4`,
yet `range_search_L2sqr` returns no pair: `add_result` keeps a
distance only when `C::cmp(radius, dis)` holds, i.e. strictly
`dis < radius` (distances.cpp:319,333). -/
theorem claim_C3_counterexample :
    fvec_L2sqr [(0 : ℚ)] [2] ≤ 4 ∧
      range_search_L2sqr 0 [[(0 : ℚ)]] [[2]] 4 = 0 := by
  have h4 : fvec_L2sqr [(0 : ℚ)] [2] = 4 := by
    norm_num [fvec_L2sqr]
  refine ⟨le_of_eq h4, ?_⟩
  rw [range_search_L2sqr,
    if_pos (by norm_num [distance_compute_blas_threshold]),
    range_seq_l2_spec]
  norm_num [List.enum, List.enumFrom, h4]

/-- C3 (amended): for every query batch, database and radius,
`range_search_L2sqr` returns — through either path — for each query `i`
exactly the pairs `(d(x_i, y_j), j)` with `d(x_i, y_j) < radius`
STRICTLY (not `≤` as claimed), and `range_search_inner_product`
symmetrically keeps exactly the similarities with `ip > radius`
strictly.  The L2² GEMM path needs consistent row dimensions for the
norm decomposition. -/
theorem claim_C3_range_search {d : Nat}
    (res : Multiset (Nat × CMaxV × Int))
    (resIP : Multiset (Nat × CMinV × Int))
    (X Y : List (List ℚ)) (radius : ℚ)
    (hX : ∀ row ∈ X, row.length = d) (hY : ∀ row ∈ Y, row.length = d) :
    range_search_L2sqr res X Y radius =
      res + (X.enum.map (fun p =>
        (((Y.enum.filter (fun q => fvec_L2sqr p.2 q.2 < radius)).map
          (fun q => (p.1, toCMax (fvec_L2sqr p.2 q.2), (q.1 : Int))) :
            List (Nat × CMaxV × Int)) : Multiset (Nat × CMaxV × Int)))).sum ∧
    range_search_inner_product resIP X Y radius =
      resIP + (X.enum.map (fun p =>
        (((Y.enum.filter (fun q => radius < fvec_inner_product p.2 q.2)).map
          (fun q => (p.1, toCMin (fvec_inner_product p.2 q.2), (q.1 : Int))) :
            List (Nat × CMinV × Int)) : Multiset (Nat × CMinV × Int)))).sum := by
  constructor
  · rw [range_search_L2sqr]
    split
    · exact range_seq_l2_spec res X Y radius
    · rw [exhaustive_L2sqr_blas_range_eq_seq res X Y _ none hX hY
        (Or.inl rfl)]
      exact range_seq_l2_spec res X Y radius
  · rw [range_search_inner_product]
    split
    · exact range_seq_ip_spec resIP X Y radius
    · rw [exhaustive_inner_product_blas_range_eq_seq]
      exact range_seq_ip_spec resIP X Y radius

/-- C3 witness: the amended statement at `X = [[1]]`, `Y = [[3]]`,
`radius = 2`. -/
theorem claim_C3_range_search_witness :
    range_search_L2sqr 0 [[(1 : ℚ)]] [[3]] 2 =
      0 + ((List.enum [[(1 : ℚ)]]).map (fun p =>
        ((((List.enum [[(3 : ℚ)]]).filter
            (fun q => fvec_L2sqr p.2 q.2 < 2)).map
          (fun q => (p.1, toCMax (fvec_L2sqr p.2 q.2), (q.1 : Int))) :
            List (Nat × CMaxV × Int)) : Multiset (Nat × CMaxV × Int)))).sum ∧
    range_search_inner_product 0 [[(1 : ℚ)]] [[3]] 2 =
      0 + ((List.enum [[(1 : ℚ)]]).map (fun p =>
        ((((List.enum [[(3 : ℚ)]]).filter
            (fun q => 2 < fvec_inner_product p.2 q.2)).map
          (fun q => (p.1, toCMin (fvec_inner_product p.2 q.2), (q.1 : Int))) :
            List (Nat × CMinV × Int)) : Multiset (Nat × CMinV × Int)))).sum :=
  claim_C3_range_search (d := 1) 0 0 [[1]] [[3]] 2
    (by intro row h; rw [List.mem_singleton] at h; rw [h]; rfl)
    (by intro row h; rw [List.mem_singleton] at h; rw [h]; rfl)

/-- C7: `fvec_renorm_L2` is idempotent on every matrix, every row of
positive squared norm is scaled entrywise by `1/sqrt(nr)` and ends with
squared norm `1`, and every all-zero row is left untouched (in exact
arithmetic, `nr > 0` fails exactly on all-zero rows). -/
theorem claim_C7_renorm_idempotent (X : List (List ℝ)) :
    fvec_renorm_L2 (fvec_renorm_L2 X) = fvec_renorm_L2 X ∧
    (∀ xi ∈ X, 0 < fvec_norm_L2sqrR xi →
      renormRow xi =
          xi.map (fun a => a * (Real.sqrt (fvec_norm_L2sqrR xi))⁻¹) ∧
        fvec_norm_L2sqrR (renormRow xi) = 1) ∧
    (∀ xi ∈ X, (∀ a ∈ xi, a = 0) → renormRow xi = xi) := by
  refine ⟨?_, ?_, ?_⟩
  · simp only [fvec_renorm_L2, List.map_map]
    apply List.map_congr_left
    intro xi _
    exact renormRow_idem xi
  · intro xi _ h
    exact ⟨by rw [renormRow, if_pos h], norm_renormRow_pos h⟩
  · intro xi _ hz
    have h0 : fvec_norm_L2sqrR xi = 0 := by
      rw [fvec_norm_L2sqrR]
      apply List.sum_eq_zero
      intro y hy
      rcases List.mem_map.mp hy with ⟨a, ha, he⟩
      rw [← he, hz a ha, mul_zero]
    rw [renormRow, if_neg (by rw [h0]; exact lt_irrefl 0)]

/-- C7 witness: the statement at `X = [[3,4],[0,0]]`, discharging the
positive-norm hypothesis at row `[3,4]` (norm `25`) and the all-zero
hypothesis at row `[0,0]`. -/
theorem claim_C7_renorm_idempotent_witness :
    fvec_renorm_L2 (fvec_renorm_L2 [[(3 : ℝ), 4], [0, 0]]) =
        fvec_renorm_L2 [[(3 : ℝ), 4], [0, 0]] ∧
      fvec_norm_L2sqrR (renormRow [(3 : ℝ), 4]) = 1 ∧
      renormRow [(0 : ℝ), 0] = [0, 0] := by
  have h := claim_C7_renorm_idempotent [[(3 : ℝ), 4], [0, 0]]
  refine ⟨h.1, ?_, ?_⟩
  · exact (h.2.1 [3, 4] (by simp) (by norm_num [fvec_norm_L2sqrR])).2
  · exact h.2.2 [0, 0] (by simp) (by intro a ha; simpa using ha)

/-- C8: in `fvec_inner_products_by_idx` and `fvec_L2sqr_by_idx`, an
output entry `(j, i)` whose id `ids[j][i]` is negative keeps the
pre-existing buffer value, and every other entry receives the distance
between query row `j` and the named `y`-row. -/
theorem claim_C8_by_idx_frame (ip dis x y : List (List ℚ))
    (ids : List (List Int)) (j i : Nat)
    (hj : j < x.length)
    (hlip : ip.length = x.length) (hldis : dis.length = x.length)
    (hlids : ids.length = x.length)
    (hi : i < (ids.getD j []).length)
    (hrip : (ip.getD j []).length = (ids.getD j []).length)
    (hrdis : (dis.getD j []).length = (ids.getD j []).length) :
    ((fvec_inner_products_by_idx ip x y ids).getD j []).getD i 0 =
      (if (ids.getD j []).getD i 0 < 0 then (ip.getD j []).getD i 0
       else fvec_inner_product (x.getD j [])
         (y.getD ((ids.getD j []).getD i 0).toNat [])) ∧
    ((fvec_L2sqr_by_idx dis x y ids).getD j []).getD i 0 =
      (if (ids.getD j []).getD i 0 < 0 then (dis.getD j []).getD i 0
       else fvec_L2sqr (x.getD j [])
         (y.getD ((ids.getD j []).getD i 0).toNat [])) := by
  have hzxi : (List.zip x ids).length = x.length := by
    rw [List.length_zip, hlids, min_self]
  constructor
  · rw [fvec_inner_products_by_idx,
      getD_map_of_lt _ _ j ([], ([], [])) []
        (by rw [List.length_zip, hlip, hzxi, min_self]; exact hj),
      getD_zip ip (List.zip x ids) j [] ([], [])
        (by rw [hlip]; exact hj) (by rw [hzxi]; exact hj),
      getD_zip x ids j [] [] hj (by rw [hlids]; exact hj)]
    dsimp only
    rw [getD_map_of_lt _ _ i ((0 : ℚ), (0 : Int)) 0
        (by rw [List.length_zip, hrip, min_self]; exact hi),
      getD_zip _ _ i 0 0 (by rw [hrip]; exact hi) hi]
  · rw [fvec_L2sqr_by_idx,
      getD_map_of_lt _ _ j ([], ([], [])) []
        (by rw [List.length_zip, hldis, hzxi, min_self]; exact hj),
      getD_zip dis (List.zip x ids) j [] ([], [])
        (by rw [hldis]; exact hj) (by rw [hzxi]; exact hj),
      getD_zip x ids j [] [] hj (by rw [hlids]; exact hj)]
    dsimp only
    rw [getD_map_of_lt _ _ i ((0 : ℚ), (0 : Int)) 0
        (by rw [List.length_zip, hrdis, min_self]; exact hi),
      getD_zip _ _ i 0 0 (by rw [hrdis]; exact hi) hi]

/-- C8 witness: buffers `[[9,9]]` / `[[8,8]]`, one query `[1]`, one
database row `[2]`, ids `[[-1, 0]]`, entry `(0, 0)` — a negative id. -/
theorem claim_C8_by_idx_frame_witness :
    ((fvec_inner_products_by_idx [[9, 9]] [[(1 : ℚ)]] [[2]]
        [[-1, 0]]).getD 0 []).getD 0 0 =
      (if (([[(-1 : Int), 0]].getD 0 []).getD 0 0) < 0 then
        (([[(9 : ℚ), 9]]).getD 0 []).getD 0 0
       else fvec_inner_product (([[(1 : ℚ)]]).getD 0 [])
         (([[(2 : ℚ)]]).getD ((([[(-1 : Int), 0]]).getD 0
           []).getD 0 0).toNat [])) ∧
    ((fvec_L2sqr_by_idx [[8, 8]] [[(1 : ℚ)]] [[2]]
        [[-1, 0]]).getD 0 []).getD 0 0 =
      (if (([[(-1 : Int), 0]].getD 0 []).getD 0 0) < 0 then
        (([[(8 : ℚ), 8]]).getD 0 []).getD 0 0
       else fvec_L2sqr (([[(1 : ℚ)]]).getD 0 [])
         (([[(2 : ℚ)]]).getD ((([[(-1 : Int), 0]]).getD 0
           []).getD 0 0).toNat [])) :=
  claim_C8_by_idx_frame [[9, 9]] [[8, 8]] [[1]] [[2]] [[-1, 0]] 0 0
    (by decide) rfl rfl rfl (by decide) rfl rfl

/-- C9: `knn_L2sqr_by_idx` has no negative-id guard.  When every id of
a query row is a valid `y` index, the scan folds `add_result` over the
WHOLE row unconditionally; and as soon as some zipped query row
contains a negative id, the scan dereferences `y + d*id` outside the
array (modelled as `none`), unlike the skipping guard of
`fvec_L2sqr_by_idx`. -/
theorem claim_C9_knn_l2_unguarded (x y : List (List ℚ))
    (ids : List (List Int)) (k : Nat) :
    ((∀ p ∈ List.zip x ids, ∀ id ∈ p.2, 0 ≤ id ∧ id.toNat < y.length) →
      knn_L2sqr_by_idx x y ids k =
        some ((List.zip x ids).map (fun p => HTree.reorder (p.2.foldl
          (fun t id => t.addResult
            (toCMax (fvec_L2sqr p.1 (y.getD id.toNat []))) id)
          (HTree.heapifyTree ⊤ k))))) ∧
    (∀ p ∈ List.zip x ids, (∃ id ∈ p.2, id < 0) →
      knn_L2sqr_by_idx x y ids k = none) := by
  constructor
  · intro h
    rw [knn_L2sqr_by_idx]
    apply mapM_eq_map_of_some
    intro p hp
    rw [knn_l2_query_all_in_range p.1 y k p.2 _ (h p hp)]
    rfl
  · intro p hp hneg
    rw [knn_L2sqr_by_idx]
    apply mapM_eq_none_of_mem
    exact ⟨p, hp, by
      rw [knn_l2_query_bad_id p.1 y k p.2 _ hneg]; rfl⟩

/-- C9 witness: with ids `[[0]]` all in range the whole row is scanned;
with ids `[[-1]]` the same call dereferences out of bounds (`none`). -/
theorem claim_C9_knn_l2_unguarded_witness :
    knn_L2sqr_by_idx [[(1 : ℚ)]] [[2]] [[0]] 1 =
      some ((List.zip [[(1 : ℚ)]] [[(0 : Int)]]).map (fun p =>
        HTree.reorder (p.2.foldl (fun t id => t.addResult
          (toCMax (fvec_L2sqr p.1 ([[(2 : ℚ)]].getD id.toNat []))) id)
          (HTree.heapifyTree ⊤ 1)))) ∧
    knn_L2sqr_by_idx [[(1 : ℚ)]] [[2]] [[-1]] 1 = none := by
  constructor
  · exact (claim_C9_knn_l2_unguarded [[1]] [[2]] [[0]] 1).1 (by decide)
  · exact (claim_C9_knn_l2_unguarded [[1]] [[2]] [[-1]] 1).2
      ([1], [-1]) (by decide) ⟨-1, by decide, by decide⟩

/-- C10: in `knn_inner_products_by_idx` a negative id terminates its
query's scan — whatever is listed after the first negative id is never
considered — while the query's heap is still built and reordered, so
every row of a successful output has exactly `k` slots. -/
theorem claim_C10_ip_terminator (x y : List (List ℚ))
    (ids : List (List Int)) (k : Nat) :
    (∀ (x_ : List ℚ) (a b : List Int) (id : Int), id < 0 →
      ∀ t : HTree CMinV,
        knn_ip_by_idx_query x_ y k (a ++ id :: b) t =
          knn_ip_by_idx_query x_ y k a t) ∧
    (∀ out, knn_inner_products_by_idx x y ids k = some out →
      ∀ row ∈ out, row.length = k) := by
  constructor
  · intro x_ a b id hneg t
    exact knn_ip_query_break x_ y k id hneg a b t
  · intro out hout row hrow
    rw [knn_inner_products_by_idx] at hout
    rcases mem_of_mapM_some _ _ out hout row hrow with ⟨p, hp, hfp⟩
    cases hq : knn_ip_by_idx_query p.1 y k p.2 (HTree.heapifyTree ⊤ k) with
    | none => rw [hq] at hfp; cases hfp
    | some t_ =>
        rw [hq, Option.map_some'] at hfp
        rw [← Option.some.inj hfp, HTree.length_reorder,
          card_knn_ip_query p.1 y k p.2 _ t_ hq,
          HTree.entries_heapifyTree, Multiset.card_replicate]

/-- C10 witness: ids `[-1, 5]` — the scan stops before the (absent)
row `5` is ever dereferenced, and the output row still has `k = 1`
slots. -/
theorem claim_C10_ip_terminator_witness :
    knn_ip_by_idx_query [(1 : ℚ)] [[2]] 1 ([] ++ (-1) :: [5])
        (HTree.heapifyTree ⊤ 1) =
      knn_ip_by_idx_query [(1 : ℚ)] [[2]] 1 [] (HTree.heapifyTree ⊤ 1) ∧
    ∀ row ∈ [HTree.reorder (HTree.heapifyTree (⊤ : CMinV) 1)],
      row.length = 1 := by
  have h := claim_C10_ip_terminator [[(1 : ℚ)]] [[2]] [[-1, 5]] 1
  exact ⟨h.1 [1] [] [5] (-1) (by decide) _,
    h.2 [HTree.reorder (HTree.heapifyTree ⊤ 1)] rfl⟩

end Faiss
